import Mathlib

/-!
Shallow embedding of the validation and code-generation core of the
register-description tool (Rust sources under `src/src/logic/`), together
with theorems checking the natural-language specification against it.

Machine integers of the source (`u16`, `u32`, `u64`) are modelled as `Nat`;
wrapping or truncation is written explicitly (`% 2 ^ w`) at the places the
source relies on a fixed width.  Fallible Rust functions returning
`Result<T, E>` are modelled with `Except Unit T` (the error payload of the
source is a human-readable `String`; the structured content of every message
relevant here is captured by the `TableMsg` inductive below).
-/

set_option maxHeartbeats 1000000

/-- Bit range of a register function (`BitRange` in `validation/register.rs`).
The source maintains the invariant `msb >= lsb`. -/
structure BitRange where
  msb : Nat
  lsb : Nat
deriving DecidableEq, Repr

/-- `BitRange::bit_count`: `msb - lsb + 1` (u32 arithmetic, no overflow for
u16 inputs with the `msb >= lsb` invariant). -/
def BitRange.bit_count (r : BitRange) : Nat :=
  r.msb - r.lsb + 1

/-- `BitRange::max_value`: `Err` (here `none`) if the range is wider than 64
bits, `u64::max_value()` for exactly 64 bits, `2 ^ bit_count - 1` below. -/
def BitRange.max_value (r : BitRange) : Option Nat :=
  if r.bit_count > 64 then none
  else if r.bit_count = 64 then some (2 ^ 64 - 1)
  else some (2 ^ r.bit_count - 1)

/-- Register sizes accepted by the tool (`RegisterSize`). -/
inductive RegisterSize where
  | size8
  | size16
  | size32
  | size64
deriving DecidableEq, Repr

/-- Numeric value of a `RegisterSize` (the `as usize` casts of the source). -/
def RegisterSize.toNat : RegisterSize → Nat
  | .size8 => 8
  | .size16 => 16
  | .size32 => 32
  | .size64 => 64

/-- Access mode of a register (`AccessMode`). -/
inductive AccessMode where
  | read
  | write
  | readWrite
deriving DecidableEq, Repr

/-- Status of a register function (`FunctionStatus`): reserved bits carry no
name, normal bits carry a name and an optional description. -/
inductive FunctionStatus where
  | reserved
  | normal (name : String) (description : Option String)
deriving DecidableEq, Repr

/-- `FunctionStatus::is_reserved`. -/
def FunctionStatus.is_reserved : FunctionStatus → Bool
  | .reserved => true
  | .normal _ _ => false

/-- A bit-field function of a register (`RegisterFunction`). -/
structure RegisterFunction where
  range : BitRange
  status : FunctionStatus
deriving DecidableEq, Repr

/-- One named value of a register enum (`RegisterEnumValue`). -/
structure RegisterEnumValue where
  value : Nat
  name : String
  description : Option String
deriving DecidableEq, Repr

/-- A register enum (`RegisterEnum`); `all_possible_values_are_defined` is the
`is_complete` flag set by the semantic checker. -/
structure RegisterEnum where
  name : String
  range : BitRange
  values : List RegisterEnumValue
  description : Option String
  all_possible_values_are_defined : Bool
deriving DecidableEq, Repr

/-- Location of a register (`RegisterLocation`). -/
inductive RegisterLocation where
  | index (n : Nat)
  | relative (n : Nat)
  | absolute (n : Nat)
deriving DecidableEq, Repr

/-- A validated register (`Register` in `validation/register.rs`). -/
structure Register where
  name : String
  access_mode : AccessMode
  size_in_bits : RegisterSize
  location : RegisterLocation
  description : Option String
  functions : List RegisterFunction
  enums : List RegisterEnum
  index : Option Nat
deriving DecidableEq, Repr

/-- Structured content of the `TableValidationError` messages produced by the
semantic checks (`Register::check_functions`, `Register::check_register_enums`)
and the schema steps of `validate_register_table` and friends.  Each
constructor corresponds to one `format!` string of the source and carries the
data interpolated into it. -/
inductive TableMsg where
  /-- "function bit range X overlaps with another function Y" -/
  | overlap (fRange other : BitRange)
  /-- "function bit range X is not inside register bounds, register size: S" -/
  | notInsideBounds (fRange : BitRange) (size : Nat)
  /-- "register bit X is undefined" (single-bit run, singular wording) -/
  | undefinedBit (r : BitRange)
  /-- "some register bits are undefined, X, Y, ..." (one or more ranges) -/
  | undefinedBits (rs : List BitRange)
  /-- "no matching function bit range found for enum X" -/
  | enumNoMatch (name : String)
  /-- "enum X bit range is reserved" -/
  | enumReserved (name : String)
  /-- "same bit range X is defined found for enums ..." -/
  | enumDupRange (range : BitRange) (name : String)
  /-- "enum X bit range ... is larger than 64 bits" -/
  | enumRangeTooLarge (name : String)
  /-- "enum value A with value V for enum X is larger than enum max value M" -/
  | enumValueTooLarge (valueName : String) (value : Nat) (enumName : String) (maxV : Nat)
  /-- "enum values A and B have the same value V" -/
  | enumDupValue (valueName : String) (value : Nat)
  /-- "register location field ... is required" -/
  | locationRequired
  /-- "register location field count error: only one location field is supported" -/
  | locationCount
  /-- "register size is undefined" -/
  | sizeUndefined
  /-- "register access mode is undefined" -/
  | accessUndefined
  /-- "missing key 'name'" (normal function without a name) -/
  | missingNameKey
  /-- "key 'name' is not allowed when function is marked as reserved" -/
  | reservedWithName
deriving DecidableEq, Repr

/-- Recognizer for overlap messages. -/
def TableMsg.isOverlap : TableMsg → Bool
  | .overlap _ _ => true
  | _ => false

/-- Recognizer for out-of-bounds messages. -/
def TableMsg.isBounds : TableMsg → Bool
  | .notInsideBounds _ _ => true
  | _ => false

/-- Recognizer for an overlap message naming the two ranges `a` and `b`
(in either order). -/
def TableMsg.namesPair (a b : BitRange) : TableMsg → Bool
  | .overlap x y => (x = a ∧ y = b) ∨ (x = b ∧ y = a)
  | _ => false

/-- Inner loop of `Register::check_functions`: walk the bit indices of one
function's range in ascending order.  A free slot is claimed; a slot already
claimed by another function reports one overlap error (suppressed once
`overlap_detected` is set); an index beyond the slot array reports the
out-of-bounds error and breaks. -/
def claimGo (r : BitRange) :
    List Nat → Bool → List (Option BitRange) → List (Option BitRange) × List TableMsg
  | [], _, bits => (bits, [])
  | i :: rest, od, bits =>
    match bits[i]? with
    | some none => claimGo r rest od (bits.set i (some r))
    | some (some other) =>
      let res := claimGo r rest true bits
      if od then res else (res.1, TableMsg.overlap r other :: res.2)
    | none => (bits, [TableMsg.notInsideBounds r bits.length])

/-- Processing of one function by `Register::check_functions` (the
`for i in f.range.lsb..=f.range.msb` loop with `overlap_detected = false`). -/
def processFunction (bits : List (Option BitRange)) (f : RegisterFunction) :
    List (Option BitRange) × List TableMsg :=
  claimGo f.range (List.range' f.range.lsb (f.range.msb + 1 - f.range.lsb)) false bits

/-- The outer function loop of `Register::check_functions`. -/
def processFunctions : List RegisterFunction → List (Option BitRange) →
    List (Option BitRange) × List TableMsg
  | [], bits => (bits, [])
  | f :: rest, bits =>
    let res := processFunction bits f
    let res2 := processFunctions rest res.1
    (res2.1, res.2 ++ res2.2)

/-- Scan of the slot array for maximal runs of unclaimed bits
(`ranges_without_function` in `Register::check_functions`), carrying the
current absolute index and the `lsb` start of an open run. -/
def runsGo : Nat → Option Nat → List (Option BitRange) → List BitRange
  | _, none, [] => []
  | i, some l, [] => [⟨i - 1, l⟩]
  | i, none, some _ :: rest => runsGo (i + 1) none rest
  | i, none, none :: rest => runsGo (i + 1) (some i) rest
  | i, some l, none :: rest => runsGo (i + 1) (some l) rest
  | i, some l, some _ :: rest => ⟨i - 1, l⟩ :: runsGo (i + 1) none rest

/-- The list of maximal unclaimed runs of a slot array. -/
def findRuns (bits : List (Option BitRange)) : List BitRange :=
  runsGo 0 none bits

/-- The undefined-bit report of `Register::check_functions` built from the
run list: nothing for no runs, singular wording for one single-bit run, a
range for one multi-bit run, one combined message for several runs. -/
def undefinedMsgs : List BitRange → List TableMsg
  | [] => []
  | [r] => if r.msb = r.lsb then [TableMsg.undefinedBit r] else [TableMsg.undefinedBits [r]]
  | rs => [TableMsg.undefinedBits rs]

/-- `Register::check_functions`: claim all function bits (reporting overlaps
and out-of-bounds ranges), then report maximal runs of unclaimed bits. -/
def check_functions (r : Register) : List TableMsg :=
  let res := processFunctions r.functions (List.replicate r.size_in_bits.toNat none)
  res.2 ++ undefinedMsgs (findRuns res.1)

/-- Value scan of one enum in `Register::check_register_enums`: report values
above the range maximum and duplicated values (`seen` models the
`enum_values` hash map keys inserted so far). -/
def checkValuesGo (enumName : String) (maxV : Nat) (seen : List Nat) :
    List RegisterEnumValue → List TableMsg
  | [] => []
  | v :: rest =>
    (if maxV < v.value then
      [TableMsg.enumValueTooLarge v.name v.value enumName maxV] else [])
    ++ (if v.value ∈ seen then [TableMsg.enumDupValue v.name v.value] else [])
    ++ checkValuesGo enumName maxV (v.value :: seen) rest

/-- Does some function of the register share the enum's bit range
(`some_range_matched` in `Register::check_register_enums`)? -/
def enumRangeMatched (fns : List RegisterFunction) (e : RegisterEnum) : Bool :=
  fns.any fun f => f.range = e.range

/-- Does some reserved function share the enum's bit range
(`reserved_function_match`)? -/
def enumReservedMatched (fns : List RegisterFunction) (e : RegisterEnum) : Bool :=
  fns.any fun f => f.range = e.range && f.status.is_reserved

/-- Body of the per-enum loop of `Register::check_register_enums`.  `seen`
models the key set of the `enum_bit_ranges` map.  Returns the (possibly
flag-updated) enum, the messages it produced, and the updated key set. -/
def checkOneEnum (fns : List RegisterFunction) (seen : List BitRange)
    (e : RegisterEnum) : RegisterEnum × List TableMsg × List BitRange :=
  if ¬ enumRangeMatched fns e then (e, [TableMsg.enumNoMatch e.name], seen)
  else if enumReservedMatched fns e then (e, [TableMsg.enumReserved e.name], seen)
  else if e.range ∈ seen then
    (e, [TableMsg.enumDupRange e.range e.name], e.range :: seen)
  else
    match e.range.max_value with
    | none => (e, [TableMsg.enumRangeTooLarge e.name], e.range :: seen)
    | some maxV =>
      let msgs := checkValuesGo e.name maxV [] e.values
      let e' :=
        if e.values.length = maxV + 1 then
          { e with all_possible_values_are_defined := true }
        else e
      (e', msgs, e.range :: seen)

/-- The enum loop of `Register::check_register_enums`, threading the range
map through the enums in order. -/
def checkEnumsGo (fns : List RegisterFunction) (seen : List BitRange) :
    List RegisterEnum → List RegisterEnum × List TableMsg
  | [] => ([], [])
  | e :: rest =>
    let r1 := checkOneEnum fns seen e
    let r2 := checkEnumsGo fns r1.2.2 rest
    (r1.1 :: r2.1, r1.2.1 ++ r2.2)

/-- `Register::check_register_enums` at the register level: returns the
register with annotated enums and the emitted messages. -/
def check_register_enums (r : Register) : Register × List TableMsg :=
  let res := checkEnumsGo r.functions [] r.enums
  ({ r with enums := res.1 }, res.2)

/-- The range-map contents after processing a list of enums: the source
inserts `e.range` whenever the enum passed the two function-matching guards
(`some_range_matched` and not `reserved_function_match`), duplicates
included. -/
def seenAfter (fns : List RegisterFunction) (seen : List BitRange) :
    List RegisterEnum → List BitRange
  | [] => seen
  | e :: rest =>
    seenAfter fns
      (if enumRangeMatched fns e ∧ ¬ enumReservedMatched fns e then e.range :: seen else seen)
      rest

/-- All guards of `Register::check_register_enums` that an enum must pass to
reach the completeness computation, given the range-map keys `seen`. -/
def enumReachesCount (fns : List RegisterFunction) (seen : List BitRange)
    (e : RegisterEnum) : Prop :=
  enumRangeMatched fns e = true ∧ enumReservedMatched fns e = false ∧
    e.range ∉ seen ∧ e.range.max_value ≠ none

instance (fns : List RegisterFunction) (seen : List BitRange) (e : RegisterEnum) :
    Decidable (enumReachesCount fns seen e) := by
  unfold enumReachesCount
  infer_instance

/-! ## Code generator (`codegen/rust/register.rs`) -/

/-- `Register::contains_reserved_bit_fields`. -/
def Register.contains_reserved_bit_fields (r : Register) : Bool :=
  r.functions.any fun f => f.status.is_reserved

/-- The accessor methods generated on a register struct. -/
inductive GenMethod where
  | modifyM
  | readM
  | writeM
deriving DecidableEq, Repr

/-- The method list assembled by `register_struct_impl`: `modify` for
read-write registers, `read` for readable ones, `write` for writable ones
without reserved bit fields (in source push order). -/
def register_struct_impl_methods (r : Register) : List GenMethod :=
  (if r.access_mode = AccessMode.readWrite then [GenMethod.modifyM] else [])
  ++ (if r.access_mode = AccessMode.read ∨ r.access_mode = AccessMode.readWrite then
        [GenMethod.readM] else [])
  ++ (if (r.access_mode = AccessMode.write ∨ r.access_mode = AccessMode.readWrite)
        ∧ r.contains_reserved_bit_fields = false then
        [GenMethod.writeM] else [])

/-- The `_MASK` constant of `RegisterBitFieldAndEnum::bit_field_constants`:
`max_value << lsb` (the `unwrap` of the source is modelled by `getD 0`; a
validated model never hits it). -/
def maskOf (range : BitRange) : Nat :=
  range.max_value.getD 0 <<< range.lsb

/-- `to_register_value` of a complete-enum variant (`conversion_methods`,
`EnumType::Complete`): the variant's numeric value shifted to the field
position, truncated to the register width like the generated fixed-width
arithmetic. -/
def toRegisterValue (range : BitRange) (size : Nat) (v : RegisterEnumValue) : Nat :=
  (v.value <<< range.lsb) % 2 ^ size

/-- The `match` of the generated `from_register_value` against the variant
value literals in declaration order: the index of the first variant whose
value equals `v`, `none` for the `unreachable!()` fallthrough arm. -/
def matchVariant (vals : List RegisterEnumValue) (v : Nat) : Option Nat :=
  match vals with
  | [] => none
  | ev :: rest => if ev.value = v then some 0 else (matchVariant rest v).map (· + 1)

/-- `from_register_value` of a complete enum: mask, shift to index zero, and
match against the declared variant values in order. -/
def fromRegisterValue (e : RegisterEnum) (raw : Nat) : Option Nat :=
  matchVariant e.values ((raw &&& maskOf e.range) >>> e.range.lsb)

/-! ## Untyped configuration tree and schema validator (`validation.rs`) -/

/-- The untyped configuration tree (`toml::Value`).  The float and datetime
variants of the TOML crate are never meaningful to this tool (every validator
rejects them as a type mismatch) and are omitted. -/
inductive Toml where
  | str (s : String)
  | int (n : Int)
  | bool (b : Bool)
  | arr (xs : List Toml)
  | table (kvs : List (String × Toml))

/-- A TOML table, keys unique by construction (maps are modelled as
association lists; lookup takes the first match). -/
def lookupKey (t : List (String × Toml)) (key : String) : Option Toml :=
  (t.find? fun p => p.1 == key).map fun p => p.2

/-- The `CurrentTable` tags of diagnostics. -/
inductive CurrentTable where
  | root
  | registerDescription
  | register
  | enum
  | enumValue
  | function
deriving DecidableEq, Repr

/-- The `ValidationError` taxonomy.  The breadcrumb context string and the
free-text part of `ValueValidationError` are presentation only and are not
modelled; the structured content of `TableValidationError` messages is the
`TableMsg` payload. -/
inductive ValidationError where
  | missingKey (table : CurrentTable) (key : String)
  | unknownKey (table : CurrentTable) (key : String)
  | valueError (table : CurrentTable) (key : String)
  | tableError (table : CurrentTable) (msg : TableMsg)
deriving DecidableEq, Repr

/-- `TableValidator::check_unknown_keys`: one `UnknownKey` diagnostic per key
outside the allowed set, in table order. -/
def unknownKeyErrors (ct : CurrentTable) (possible : List String)
    (t : List (String × Toml)) : List ValidationError :=
  t.filterMap fun p =>
    if possible.contains p.1 then none else some (.unknownKey ct p.1)

/-- `v.string(key).optional()`: absent is fine, a present non-string is a
`ValueError` that rejects the enclosing entity (the `?` after `optional()`). -/
def optStringV (ct : CurrentTable) (t : List (String × Toml)) (key : String) :
    Except Unit (Option String) × List ValidationError :=
  match lookupKey t key with
  | none => (.ok none, [])
  | some (Toml.str s) => (.ok (some s), [])
  | some _ => (.error (), [.valueError ct key])

/-- `v.name(key).require()`.  Modelled from the spec: `TableValidator::name`
is not among the provided sources (the `Name` type and this method are
missing from `validation.rs`); the source's leading TODO defers regex checks
of names, so a name is read as a plain required string (`text`/`string` are
in the source). -/
def reqStringV (ct : CurrentTable) (t : List (String × Toml)) (key : String) :
    Except Unit String × List ValidationError :=
  match lookupKey t key with
  | none => (.error (), [.missingKey ct key])
  | some (Toml.str s) => (.ok s, [])
  | some _ => (.error (), [.valueError ct key])

/-- `v.try_from_type(key).optional()` for a string-vocabulary type. -/
def optParse {α : Type} (ct : CurrentTable) (t : List (String × Toml))
    (key : String) (p : String → Option α) :
    Except Unit (Option α) × List ValidationError :=
  match lookupKey t key with
  | none => (.ok none, [])
  | some (Toml.str s) =>
    match p s with
    | some a => (.ok (some a), [])
    | none => (.error (), [.valueError ct key])
  | some _ => (.error (), [.valueError ct key])

/-- `v.try_from_type(key).require()` for a string-vocabulary type. -/
def reqParse {α : Type} (ct : CurrentTable) (t : List (String × Toml))
    (key : String) (p : String → Option α) :
    Except Unit α × List ValidationError :=
  match lookupKey t key with
  | none => (.error (), [.missingKey ct key])
  | some (Toml.str s) =>
    match p s with
    | some a => (.ok a, [])
    | none => (.error (), [.valueError ct key])
  | some _ => (.error (), [.valueError ct key])

/-- `v.try_from_integer(key).optional()` at type u64.  Modelled from the
spec: `try_from_integer` is not among the provided sources; per the spec's
"integer bounds-checking", a present integer converts to u64 with negative
values reported as a `ValueError`, and a non-integer value is the type
mismatch `ValueError` of `integer()` (which is in the source). -/
def optU64 (ct : CurrentTable) (t : List (String × Toml)) (key : String) :
    Except Unit (Option Nat) × List ValidationError :=
  match lookupKey t key with
  | none => (.ok none, [])
  | some (Toml.int n) =>
    if 0 ≤ n then (.ok (some n.toNat), []) else (.error (), [.valueError ct key])
  | some _ => (.error (), [.valueError ct key])

/-- `v.try_from_integer(key).require()` at type u64 (see `optU64`). -/
def reqU64 (ct : CurrentTable) (t : List (String × Toml)) (key : String) :
    Except Unit Nat × List ValidationError :=
  match lookupKey t key with
  | none => (.error (), [.missingKey ct key])
  | some (Toml.int n) =>
    if 0 ≤ n then (.ok n.toNat, []) else (.error (), [.valueError ct key])
  | some _ => (.error (), [.valueError ct key])

/-- `v.u16(key).optional()`: an integer within `0..=65535`. -/
def optU16 (ct : CurrentTable) (t : List (String × Toml)) (key : String) :
    Except Unit (Option Nat) × List ValidationError :=
  match lookupKey t key with
  | none => (.ok none, [])
  | some (Toml.int n) =>
    if 0 ≤ n ∧ n ≤ 65535 then (.ok (some n.toNat), [])
    else (.error (), [.valueError ct key])
  | some _ => (.error (), [.valueError ct key])

/-- `v.boolean(key).optional()`. -/
def optBool (ct : CurrentTable) (t : List (String × Toml)) (key : String) :
    Except Unit (Option Bool) × List ValidationError :=
  match lookupKey t key with
  | none => (.ok none, [])
  | some (Toml.bool b) => (.ok (some b), [])
  | some _ => (.error (), [.valueError ct key])

/-- The element check of `array_of_tables`: the source inspects only the
first element (empty arrays pass); the per-element `as_table().unwrap()` can
only panic on inputs that already failed that check's intent, so the walk is
modelled as keeping the table elements. -/
def tablesOfArray (xs : List Toml) : Except Unit (List (List (String × Toml))) :=
  match xs with
  | [] => .ok []
  | Toml.table _ :: _ =>
    .ok (xs.filterMap fun x => match x with | Toml.table t => some t | _ => none)
  | _ :: _ => .error ()

/-- `v.array_of_tables(key).require()`. -/
def reqArrTables (ct : CurrentTable) (t : List (String × Toml)) (key : String) :
    Except Unit (List (List (String × Toml))) × List ValidationError :=
  match lookupKey t key with
  | none => (.error (), [.missingKey ct key])
  | some (Toml.arr xs) =>
    match tablesOfArray xs with
    | .ok ts => (.ok ts, [])
    | .error _ => (.error (), [.valueError ct key])
  | some _ => (.error (), [.valueError ct key])

/-- `v.array_of_tables(key).optional()`. -/
def optArrTables (ct : CurrentTable) (t : List (String × Toml)) (key : String) :
    Except Unit (Option (List (List (String × Toml)))) × List ValidationError :=
  match lookupKey t key with
  | none => (.ok none, [])
  | some (Toml.arr xs) =>
    match tablesOfArray xs with
    | .ok ts => (.ok (some ts), [])
    | .error _ => (.error (), [.valueError ct key])
  | some _ => (.error (), [.valueError ct key])

/-! ## Entity validators (`register_description.rs`, `register.rs`) -/

/-- `SpecVersion`: exactly one accepted literal, "0.1". -/
inductive SpecVersion where
  | versionZeroOne
deriving DecidableEq, Repr

/-- Addressing extension (`Extension`): only "vga". -/
inductive Extension where
  | vga
deriving DecidableEq, Repr

/-- `AddressSize`: native pointer width or an explicit register size. -/
inductive AddressSize where
  | pointer
  | registerSize (s : RegisterSize)
deriving DecidableEq, Repr

/-- The validated top-level description table (`RegisterDescription`). -/
structure RegisterDescription where
  name : String
  description : Option String
  version : SpecVersion
  extension : Option Extension
  default_register_size_in_bits : Option RegisterSize
  default_register_access : Option AccessMode
  index_size : RegisterSize
  address_size : AddressSize
deriving DecidableEq, Repr

/-- `TryFrom<&str> for SpecVersion`. -/
def parseSpecVersion (s : String) : Option SpecVersion :=
  if s = "0.1" then some .versionZeroOne else none

/-- `TryFrom<&str> for Extension`. -/
def parseExtension (s : String) : Option Extension :=
  if s = "vga" then some .vga else none

/-- `TryFrom<&str> for RegisterSize`. -/
def parseRegisterSize (s : String) : Option RegisterSize :=
  match s with
  | "8" => some .size8
  | "16" => some .size16
  | "32" => some .size32
  | "64" => some .size64
  | _ => none

/-- `TryFrom<&str> for AccessMode`. -/
def parseAccessMode (s : String) : Option AccessMode :=
  match s with
  | "r" => some .read
  | "w" => some .write
  | "rw" => some .readWrite
  | _ => none

/-- Digit-by-digit decimal accumulator (`str::parse` core loop). -/
def parseDigits : List Char → Nat → Option Nat
  | [], acc => some acc
  | c :: rest, acc =>
    if c.isDigit then parseDigits rest (acc * 10 + (c.toNat - 48)) else none

/-- Split a character list at every colon (`str::split(":")` for the
single-character separator: the empty string yields one empty piece). -/
def splitColon : List Char → List (List Char)
  | [] => [[]]
  | ':' :: rest => [] :: splitColon rest
  | c :: rest =>
    match splitColon rest with
    | h :: t => (c :: h) :: t
    | [] => [[c]]

/-- `str::parse::<u16>` on a bit-range component: nonempty, all digits,
within the u16 range. -/
def parseU16chars (cs : List Char) : Option Nat :=
  match cs with
  | [] => none
  | _ =>
    match parseDigits cs 0 with
    | some n => if n ≤ 65535 then some n else none
    | none => none

/-- `TryFrom<&str> for BitRange`: either a single bit "n", or "msb:lsb" with
`msb > lsb` (equal components are the "unnecessary range syntax" error, a
reversed pair is an error, more than one colon is an error). -/
def parseBitRangeStr (s : String) : Option BitRange :=
  match splitColon s.data with
  | [single] => (parseU16chars single).map fun b => ⟨b, b⟩
  | [a, b] =>
    match parseU16chars a, parseU16chars b with
    | some msb, some lsb => if msb ≤ lsb then none else some ⟨msb, lsb⟩
    | _, _ => none
  | _ => none

/-- `validate_function_table`. -/
def validate_function_table (t : List (String × Toml)) :
    Except Unit RegisterFunction × List ValidationError :=
  match reqParse .function t "bit" parseBitRangeStr with
  | (.error _, es) => (.error (), es)
  | (.ok range, _) =>
  let unk := unknownKeyErrors .function ["bit", "name", "description", "reserved"] t
  match optBool .function t "reserved" with
  | (.error _, es) => (.error (), unk ++ es)
  | (.ok rsv, _) =>
  match optStringV .function t "name" with
  | (.error _, es) => (.error (), unk ++ es)
  | (.ok nameOpt, _) =>
  match optStringV .function t "description" with
  | (.error _, es) => (.error (), unk ++ es)
  | (.ok descr, _) =>
  match rsv.getD false, nameOpt with
  | false, some nm => (.ok ⟨range, .normal nm descr⟩, unk)
  | false, none => (.error (), unk ++ [.tableError .function .missingNameKey])
  | true, some _ => (.error (), unk ++ [.tableError .function .reservedWithName])
  | true, none => (.ok ⟨range, .reserved⟩, unk)

/-- The `for` walk of `handle_register_array` specialised to function tables:
children that fail to validate are skipped, their diagnostics kept. -/
def validateFunctionTables :
    List (List (String × Toml)) → List RegisterFunction × List ValidationError
  | [] => ([], [])
  | t :: rest =>
    let r1 := validate_function_table t
    let r2 := validateFunctionTables rest
    match r1.1 with
    | .ok f => (f :: r2.1, r1.2 ++ r2.2)
    | .error _ => (r2.1, r1.2 ++ r2.2)

/-- `validate_enum_value_table`. -/
def validate_enum_value_table (t : List (String × Toml)) :
    Except Unit RegisterEnumValue × List ValidationError :=
  match reqStringV .enumValue t "name" with
  | (.error _, es) => (.error (), es)
  | (.ok name, _) =>
  let unk := unknownKeyErrors .enumValue ["value", "name", "description"] t
  match reqU64 .enumValue t "value" with
  | (.error _, es) => (.error (), unk ++ es)
  | (.ok value, _) =>
  match optStringV .enumValue t "description" with
  | (.error _, es) => (.error (), unk ++ es)
  | (.ok descr, _) => (.ok ⟨value, name, descr⟩, unk)

/-- Walk over the enum-value tables, skipping failed children. -/
def validateEnumValueTables :
    List (List (String × Toml)) → List RegisterEnumValue × List ValidationError
  | [] => ([], [])
  | t :: rest =>
    let r1 := validate_enum_value_table t
    let r2 := validateEnumValueTables rest
    match r1.1 with
    | .ok v => (v :: r2.1, r1.2 ++ r2.2)
    | .error _ => (r2.1, r1.2 ++ r2.2)

/-- `validate_enum_table`: the `all_possible_values_are_defined` flag starts
out `false` and is only ever raised by the semantic checker. -/
def validate_enum_table (t : List (String × Toml)) :
    Except Unit RegisterEnum × List ValidationError :=
  match reqStringV .enum t "name" with
  | (.error _, es) => (.error (), es)
  | (.ok name, _) =>
  let unk := unknownKeyErrors .enum ["name", "bit", "description", "values"] t
  match reqParse .enum t "bit" parseBitRangeStr with
  | (.error _, es) => (.error (), unk ++ es)
  | (.ok range, _) =>
  match optStringV .enum t "description" with
  | (.error _, es) => (.error (), unk ++ es)
  | (.ok descr, _) =>
  match reqArrTables .enum t "values" with
  | (.error _, es) => (.error (), unk ++ es)
  | (.ok vts, _) =>
  let vres := validateEnumValueTables vts
  (.ok ⟨name, range, vres.1, descr, false⟩, unk ++ vres.2)

/-- Walk over the enum tables, skipping failed children. -/
def validateEnumTables :
    List (List (String × Toml)) → List RegisterEnum × List ValidationError
  | [] => ([], [])
  | t :: rest =>
    let r1 := validate_enum_table t
    let r2 := validateEnumTables rest
    match r1.1 with
    | .ok e => (e :: r2.1, r1.2 ++ r2.2)
    | .error _ => (r2.1, r1.2 ++ r2.2)

/-- The location resolution block of `validate_register_table`: exactly one
of the three location options must have been read. -/
def registerLocation :
    Option Nat → Option Nat → Option Nat → Except TableMsg RegisterLocation
  | some n, none, none => .ok (.index n)
  | none, some n, none => .ok (.absolute n)
  | none, none, some n => .ok (.relative n)
  | none, none, none => .error .locationRequired
  | _, _, _ => .error .locationCount

/-- The allowed key set of a register table (the `vga` extension chains
`index` a second time, leaving the set unchanged; `index` is already
a possible key). -/
def registerPossibleKeys : List String :=
  ["name", "description", "access", "absolute_address", "relative_address",
   "bit_fields", "enum", "size", "index"]

/-- `validate_register_table`: schema steps in source order, then the
semantic checks `check_functions` and `check_register_enums` on the built
register.  Diagnostics accumulate in emission order. -/
def validate_register_table (t : List (String × Toml)) (rd : RegisterDescription) :
    Except Unit Register × List ValidationError :=
  match reqStringV .register t "name" with
  | (.error _, es) => (.error (), es)
  | (.ok name, _) =>
  let unk := unknownKeyErrors .register registerPossibleKeys t
  match optStringV .register t "description" with
  | (.error _, es) => (.error (), unk ++ es)
  | (.ok description, _) =>
  match optU64 .register t "index" with
  | (.error _, es) => (.error (), unk ++ es)
  | (.ok indexLoc, _) =>
  match optU64 .register t "absolute_address" with
  | (.error _, es) => (.error (), unk ++ es)
  | (.ok absLoc, _) =>
  match optU64 .register t "relative_address" with
  | (.error _, es) => (.error (), unk ++ es)
  | (.ok relLoc, _) =>
  match registerLocation indexLoc absLoc relLoc with
  | .error m => (.error (), unk ++ [.tableError .register m])
  | .ok location =>
  match optParse .register t "size" parseRegisterSize with
  | (.error _, es) => (.error (), unk ++ es)
  | (.ok szOpt, _) =>
  match (szOpt.orElse fun _ => rd.default_register_size_in_bits) with
  | none => (.error (), unk ++ [.tableError .register .sizeUndefined])
  | some size_in_bits =>
  match optParse .register t "access" parseAccessMode with
  | (.error _, es) => (.error (), unk ++ es)
  | (.ok acOpt, _) =>
  match (acOpt.orElse fun _ => rd.default_register_access) with
  | none => (.error (), unk ++ [.tableError .register .accessUndefined])
  | some access_mode =>
  match reqArrTables .register t "bit_fields" with
  | (.error _, es) => (.error (), unk ++ es)
  | (.ok fts, _) =>
  let fres := validateFunctionTables fts
  match optArrTables .register t "enum" with
  | (.error _, es) => (.error (), unk ++ fres.2 ++ es)
  | (.ok etsOpt, _) =>
  let eres :=
    match etsOpt with
    | none => ([], [])
    | some ets => validateEnumTables ets
  match optU16 .register t "index" with
  | (.error _, es) => (.error (), unk ++ fres.2 ++ eres.2 ++ es)
  | (.ok index, _) =>
  let reg0 : Register :=
    ⟨name, access_mode, size_in_bits, location, description, fres.1, eres.1, index⟩
  let fmsgs := check_functions reg0
  let eres2 := check_register_enums reg0
  (.ok eres2.1,
    unk ++ fres.2 ++ eres.2
      ++ (fmsgs ++ eres2.2).map (ValidationError.tableError .register))

/-- The validated model (`ParsedFile`): grouped registers or a flat list. -/
inductive Registers where
  | groups (gs : List (String × List Register))
  | onlyRegisters (rs : List Register)

/-- The output of `check_root_table` (`ParsedFile`). -/
structure ParsedFile where
  description : RegisterDescription
  registers : Option Registers

/-- `check_register_description`: unknown keys first, then each field in
source order; the table is rejected if any required or present field fails. -/
def check_register_description (t : List (String × Toml)) :
    Except Unit RegisterDescription × List ValidationError :=
  let unk := unknownKeyErrors .registerDescription
    ["version", "name", "description", "default_register_size",
     "extension", "default_register_access", "index_size", "address_size"] t
  match reqStringV .registerDescription t "name" with
  | (.error _, es) => (.error (), unk ++ es)
  | (.ok name, _) =>
  match reqParse .registerDescription t "version" parseSpecVersion with
  | (.error _, es) => (.error (), unk ++ es)
  | (.ok version, _) =>
  match optStringV .registerDescription t "description" with
  | (.error _, es) => (.error (), unk ++ es)
  | (.ok description, _) =>
  match optParse .registerDescription t "extension" parseExtension with
  | (.error _, es) => (.error (), unk ++ es)
  | (.ok extension, _) =>
  match optParse .registerDescription t "default_register_size" parseRegisterSize with
  | (.error _, es) => (.error (), unk ++ es)
  | (.ok dsz, _) =>
  match optParse .registerDescription t "default_register_access" parseAccessMode with
  | (.error _, es) => (.error (), unk ++ es)
  | (.ok dac, _) =>
  match optParse .registerDescription t "index_size" parseRegisterSize with
  | (.error _, es) => (.error (), unk ++ es)
  | (.ok isz, _) =>
  match optParse .registerDescription t "address_size" parseRegisterSize with
  | (.error _, es) => (.error (), unk ++ es)
  | (.ok asz, _) =>
    (.ok ⟨name, description, version, extension, dsz, dac,
          isz.getD .size64, (asz.map AddressSize.registerSize).getD .pointer⟩, unk)

/-- `handle_register_array`: validate each element; non-tables are a
`ValueError` on the `register` key; failed registers are skipped. -/
def handle_register_array (rd : RegisterDescription) :
    List Toml → List Register × List ValidationError
  | [] => ([], [])
  | Toml.table t :: rest =>
    let r1 := validate_register_table t rd
    let r2 := handle_register_array rd rest
    match r1.1 with
    | .ok r => (r :: r2.1, r1.2 ++ r2.2)
    | .error _ => (r2.1, r1.2 ++ r2.2)
  | _ :: rest =>
    let r2 := handle_register_array rd rest
    (r2.1, ValidationError.valueError .root "register" :: r2.2)

/-- The group branch of `check_root_table`: each value of the group table
must be an array of register tables. -/
def handleGroups (rd : RegisterDescription) :
    List (String × Toml) → List (String × List Register) × List ValidationError
  | [] => ([], [])
  | (k, Toml.arr xs) :: rest =>
    let r1 := handle_register_array rd xs
    let r2 := handleGroups rd rest
    ((k, r1.1) :: r2.1, r1.2 ++ r2.2)
  | (_, _) :: rest =>
    let r2 := handleGroups rd rest
    (r2.1, ValidationError.valueError .root "register" :: r2.2)

/-- The handling of the `register` root key in `check_root_table`: an array
becomes the flat register list; a table of groups is validated group by
group, but the source never stores the built group vector in the parsed
file, so the model's `registers` field stays `none` on that branch; any
other value is a `ValueError`. -/
def handleRegisterKey (root : List (String × Toml)) (rd : RegisterDescription) :
    Option Registers × List ValidationError :=
  match lookupKey root "register" with
  | none => (none, [])
  | some (Toml.arr xs) =>
    let r := handle_register_array rd xs
    (some (.onlyRegisters r.1), r.2)
  | some (Toml.table gt) =>
    let r := handleGroups rd gt
    (none, r.2)
  | some _ => (none, [.valueError .root "register"])

/-- `check_root_table`: unknown root keys, the required description table,
then the optional registers; `Ok` exactly when no diagnostic accumulated. -/
def check_root_table (root : List (String × Toml)) :
    Except (List ValidationError) ParsedFile :=
  let unk := unknownKeyErrors .root ["register_description", "register"] root
  match lookupKey root "register_description" with
  | none => .error (unk ++ [.missingKey .root "register_description"])
  | some (Toml.table dt) =>
    (match check_register_description dt with
    | (.error _, es) => .error (unk ++ es)
    | (.ok rd, esd) =>
      let regs := handleRegisterKey root rd
      let all := unk ++ esd ++ regs.2
      if all.isEmpty then .ok ⟨rd, regs.1⟩ else .error all)
  | some _ => .error (unk ++ [.valueError .root "register_description"])

/-! ## Specification-side definitions (used to state the claims) -/

/-- Is slot `k` claimed by some function? -/
def claimedAtB (bits : List (Option BitRange)) (k : Nat) : Bool :=
  match bits[k]? with
  | some (some _) => true
  | _ => false

/-- The spec's notion of a maximal run of unclaimed bits: a nonempty interval
of unclaimed slots that cannot be extended on either side. -/
def specMaximalRun (bits : List (Option BitRange)) (r : BitRange) : Prop :=
  r.lsb ≤ r.msb ∧
  (∀ k ∈ List.range' r.lsb (r.msb + 1 - r.lsb), bits[k]? = some none) ∧
  (r.lsb = 0 ∨ claimedAtB bits (r.lsb - 1) = true) ∧
  (r.msb + 1 = bits.length ∨ claimedAtB bits (r.msb + 1) = true)

instance (bits : List (Option BitRange)) (r : BitRange) :
    Decidable (specMaximalRun bits r) := by
  unfold specMaximalRun
  infer_instance

/-- The spec's wording of the undefined-bit report: no runs produce no
message, a single-bit run one singular message, a multi-bit run one range
message, several runs one combined message listing every range. -/
def specUndefinedReport : List BitRange → List TableMsg → Prop
  | [], msgs => msgs = []
  | [r], msgs =>
    if r.msb = r.lsb then msgs = [TableMsg.undefinedBit r]
    else msgs = [TableMsg.undefinedBits [r]]
  | rs, msgs => msgs = [TableMsg.undefinedBits rs]

/-- What the remaining scan `runsGo i st rest` produces, described directly:
either the closure of the run opened at `st`, or a run fully contained in
the unscanned suffix (`rest[d]?` is the slot at absolute position `i + d`). -/
def runsGoSpec (i : Nat) (st : Option Nat) (rest : List (Option BitRange))
    (r : BitRange) : Prop :=
  (∃ l, st = some l ∧ r.lsb = l ∧ i ≤ r.msb + 1 ∧
    (∀ k ∈ List.range' i (r.msb + 1 - i), rest[k - i]? = some none) ∧
    (r.msb + 1 = i + rest.length ∨ claimedAtB rest (r.msb + 1 - i) = true))
  ∨
  (r.lsb ≤ r.msb ∧ i ≤ r.lsb ∧
    ((r.lsb = i ∧ st = none) ∨ (i + 1 ≤ r.lsb ∧ claimedAtB rest (r.lsb - 1 - i) = true)) ∧
    (∀ k ∈ List.range' r.lsb (r.msb + 1 - r.lsb), rest[k - i]? = some none) ∧
    (r.msb + 1 = i + rest.length ∨ claimedAtB rest (r.msb + 1 - i) = true))

/-- Value read by `try_from_integer` from a location key, when well formed. -/
def locVal (t : List (String × Toml)) (key : String) : Option Nat :=
  match lookupKey t key with
  | some (Toml.int n) => some n.toNat
  | _ => none

/-- A location key is either absent or holds a nonnegative integer. -/
def locValOk (t : List (String × Toml)) (key : String) : Prop :=
  match lookupKey t key with
  | none => True
  | some (Toml.int n) => 0 ≤ n
  | some _ => False

/-- The description key is absent or holds a string (so the optional read
succeeds). -/
def descOk (t : List (String × Toml)) : Prop :=
  match lookupKey t "description" with
  | none => True
  | some (Toml.str _) => True
  | some _ => False

/-- How many of the three location keys are present in a register table. -/
def locKeysPresentCount (t : List (String × Toml)) : Nat :=
  (if (lookupKey t "index").isSome then 1 else 0)
  + (if (lookupKey t "absolute_address").isSome then 1 else 0)
  + (if (lookupKey t "relative_address").isSome then 1 else 0)

/-- The diagnostics accumulated by a full `check_root_table` run (spec side:
"the accumulated diagnostic list at the end of the pass", with the
description-failure short-circuit). -/
def rootErrors (root : List (String × Toml)) : List ValidationError :=
  let unk := unknownKeyErrors .root ["register_description", "register"] root
  match lookupKey root "register_description" with
  | none => unk ++ [.missingKey .root "register_description"]
  | some (Toml.table dt) =>
    match check_register_description dt with
    | (.error _, es) => unk ++ es
    | (.ok rd, esd) => unk ++ esd ++ (handleRegisterKey root rd).2
  | some _ => unk ++ [.valueError .root "register_description"]

/-! ## Concrete inputs used by counterexamples and witnesses -/

/-- A register table with one bit field covering the whole 8-bit register. -/
def c1RegTable : List (String × Toml) :=
  [("name", Toml.str "A"), ("absolute_address", Toml.int 16),
   ("bit_fields", Toml.arr [Toml.table [("bit", Toml.str "7:0"), ("name", Toml.str "f")]])]

/-- A root table whose `register` key maps the group name "g" to one valid
register; its validation produces zero diagnostics. -/
def c1Root : List (String × Toml) :=
  [("register_description", Toml.table
      [("name", Toml.str "n"), ("version", Toml.str "0.1"),
       ("default_register_size", Toml.str "8"),
       ("default_register_access", Toml.str "r")]),
   ("register", Toml.table [("g", Toml.arr [Toml.table c1RegTable])])]

/-- The spec scenario register: size 8, bit fields `3:0` and `4:1`. -/
def c2ScenarioReg : Register :=
  ⟨"STATUS", .read, .size8, .absolute 16, none,
   [⟨⟨3, 0⟩, .normal "a" none⟩, ⟨⟨4, 1⟩, .normal "b" none⟩], [], none⟩

/-- Three-way overlap: `c = 3:0` overlaps both `a = 1:0` and `b = 3:2`,
but only its first overlapping bit (bit 0, owned by `a`) is reported. -/
def c2CexReg : Register :=
  ⟨"STATUS", .read, .size8, .absolute 16, none,
   [⟨⟨1, 0⟩, .normal "a" none⟩, ⟨⟨3, 2⟩, .normal "b" none⟩,
    ⟨⟨3, 0⟩, .normal "c" none⟩, ⟨⟨7, 4⟩, .normal "d" none⟩], [], none⟩

/-- Size-8 register leaving exactly bit 5 unclaimed. -/
def c3WReg : Register :=
  ⟨"R", .read, .size8, .absolute 0, none,
   [⟨⟨4, 0⟩, .normal "lo" none⟩, ⟨⟨7, 6⟩, .normal "hi" none⟩], [], none⟩

/-- Register whose enum has `max_value + 1` values but a bit range matching
no function: the completeness computation is never reached. -/
def c5CexReg : Register :=
  ⟨"R", .read, .size8, .absolute 0, none,
   [⟨⟨7, 0⟩, .normal "f" none⟩],
   [⟨"e", ⟨2, 1⟩,
     [⟨0, "v0", none⟩, ⟨1, "v1", none⟩, ⟨2, "v2", none⟩, ⟨3, "v3", none⟩],
     none, false⟩], none⟩

/-- Fully valid register with a complete 2-bit enum on function `1:0`. -/
def c5WReg : Register :=
  ⟨"R", .read, .size8, .absolute 0, none,
   [⟨⟨1, 0⟩, .normal "f" none⟩, ⟨⟨7, 2⟩, .normal "g" none⟩],
   [⟨"e", ⟨1, 0⟩,
     [⟨0, "v0", none⟩, ⟨1, "v1", none⟩, ⟨2, "v2", none⟩, ⟨3, "v3", none⟩],
     none, false⟩], none⟩

/-- Like `c5WReg` but with only 3 of the 4 representable values. -/
def c5WReg3 : Register :=
  ⟨"R", .read, .size8, .absolute 0, none,
   [⟨⟨1, 0⟩, .normal "f" none⟩, ⟨⟨7, 2⟩, .normal "g" none⟩],
   [⟨"e", ⟨1, 0⟩,
     [⟨0, "v0", none⟩, ⟨1, "v1", none⟩, ⟨2, "v2", none⟩],
     none, false⟩], none⟩

/-- Fully valid register with a complete 2-bit enum, used by the C9 witness. -/
def c9WReg : Register :=
  ⟨"R", .read, .size8, .absolute 0, none,
   [⟨⟨1, 0⟩, .normal "f" none⟩, ⟨⟨7, 2⟩, .normal "g" none⟩],
   [⟨"e", ⟨1, 0⟩,
     [⟨0, "v0", none⟩, ⟨1, "v1", none⟩, ⟨2, "v2", none⟩, ⟨3, "v3", none⟩],
     none, false⟩], none⟩

/-- A description table providing defaults for size and access. -/
def c6Rd : RegisterDescription :=
  ⟨"n", none, .versionZeroOne, none, some .size8, some .read, .size64, .pointer⟩

/-- Register table with two location keys, one of them not an integer. -/
def c6CexTable : List (String × Toml) :=
  [("name", Toml.str "A"), ("index", Toml.int 1),
   ("absolute_address", Toml.str "x")]

/-- Register table with no location key at all. -/
def c6WTable : List (String × Toml) :=
  [("name", Toml.str "A")]

/-- Do two bit ranges share at least one bit? -/
def BitRange.overlaps (a b : BitRange) : Bool :=
  max a.lsb b.lsb ≤ min a.msb b.msb

/-- Function used by the C10 witness: range `5:2`, outside a 4-bit array. -/
def c10WFun : RegisterFunction :=
  ⟨⟨5, 2⟩, .normal "x" none⟩

/-! ## Helper lemmas -/

theorem anyCongr {α : Type} {l : List α} {p q : α → Bool}
    (h : ∀ x ∈ l, p x = q x) : l.any p = l.any q := by
  induction l with
  | nil => rfl
  | cons a l ih =>
    simp only [List.any_cons]
    rw [h a (by simp), ih fun x hx => h x (by simp [hx])]

theorem claimGo_length (r : BitRange) :
    ∀ (idxs : List Nat) (od : Bool) (bits : List (Option BitRange)),
      (claimGo r idxs od bits).1.length = bits.length := by
  intro idxs
  induction idxs with
  | nil => intro od bits; rfl
  | cons i rest ih =>
    intro od bits
    simp only [claimGo]
    cases h : bits[i]? with
    | none => simp
    | some o =>
      cases o with
      | none => simpa [List.length_set] using ih od (bits.set i (some r))
      | some other => cases od <;> simp [ih]

theorem claimGo_cons_oob (r : BitRange) (i : Nat) (rest : List Nat) (od : Bool)
    (bits : List (Option BitRange)) (h : bits[i]? = none) :
    claimGo r (i :: rest) od bits = (bits, [TableMsg.notInsideBounds r bits.length]) := by
  simp only [claimGo, h]

theorem claimGo_cons_unclaimed (r : BitRange) (i : Nat) (rest : List Nat) (od : Bool)
    (bits : List (Option BitRange)) (h : bits[i]? = some none) :
    claimGo r (i :: rest) od bits = claimGo r rest od (bits.set i (some r)) := by
  simp only [claimGo, h]

theorem claimGo_cons_claimed (r : BitRange) (i : Nat) (rest : List Nat) (od : Bool)
    (bits : List (Option BitRange)) (other : BitRange) (h : bits[i]? = some (some other)) :
    claimGo r (i :: rest) od bits =
      if od then claimGo r rest true bits
      else ((claimGo r rest true bits).1,
            TableMsg.overlap r other :: (claimGo r rest true bits).2) := by
  simp only [claimGo, h]

theorem claimGo_spec (r : BitRange) :
    ∀ (cnt i : Nat) (od : Bool) (bits : List (Option BitRange)),
      (∀ j, (claimGo r (List.range' i cnt) od bits).1[j]? =
        if i ≤ j ∧ j < i + cnt ∧ bits[j]? = some none then some (some r) else bits[j]?) ∧
      ((claimGo r (List.range' i cnt) od bits).2.countP TableMsg.isBounds =
        if bits.length < i + cnt ∧ 0 < cnt then 1 else 0) ∧
      ((claimGo r (List.range' i cnt) od bits).2.countP TableMsg.isOverlap =
        if od then 0
        else if (List.range' i (min (i + cnt) bits.length - i)).any (claimedAtB bits) then 1
        else 0) ∧
      (bits.length < i + cnt → 0 < cnt →
        (claimGo r (List.range' i cnt) od bits).2.getLast? =
          some (TableMsg.notInsideBounds r bits.length)) := by
  intro cnt
  induction cnt with
  | zero =>
    intro i od bits
    refine ⟨?_, ?_, ?_, ?_⟩
    · intro j
      rw [if_neg]
      · rfl
      · rintro ⟨h1, h2, _⟩; omega
    · rw [if_neg]
      · rfl
      · rintro ⟨_, h2⟩; omega
    · have hz : min (i + 0) bits.length - i = 0 := by omega
      rw [hz]
      cases od <;> rfl
    · intro _ h; omega
  | succ cnt ih =>
    intro i od bits
    rw [List.range'_succ]
    cases h : bits[i]? with
    | none =>
      have hlen : bits.length ≤ i := List.getElem?_eq_none_iff.mp h
      rw [claimGo_cons_oob r i _ od bits h]
      refine ⟨?_, ?_, ?_, ?_⟩
      · intro j
        rw [if_neg (by
          rintro ⟨h1, _, h3⟩
          have := (List.getElem?_eq_some_iff.mp h3).1
          omega)]
      · rw [if_pos ⟨by omega, by omega⟩]
        simp [List.countP_cons, TableMsg.isBounds]
      · have hz : min (i + (cnt + 1)) bits.length - i = 0 := by omega
        rw [hz]
        cases od <;> simp [List.countP_cons, TableMsg.isOverlap]
      · intro _ _; rfl
    | some o =>
      have hi : i < bits.length := by
        rcases List.getElem?_eq_some_iff.mp h with ⟨hlt, _⟩
        exact hlt
      cases o with
      | none =>
        rw [claimGo_cons_unclaimed r i _ od bits h]
        obtain ⟨ih1, ih2, ih3, ih4⟩ := ih (i + 1) od (bits.set i (some r))
        have hlen2 : (bits.set i (some r)).length = bits.length := List.length_set ..
        refine ⟨?_, ?_, ?_, ?_⟩
        · intro j
          rw [ih1 j]
          by_cases hj : j = i
          · subst hj
            rw [if_neg (by rintro ⟨h1, _⟩; omega)]
            rw [List.getElem?_set_self hi, if_pos ⟨le_refl j, by omega, h⟩]
          · rw [List.getElem?_set_ne (fun he => hj he.symm)]
            split_ifs with hA hB hB
            · rfl
            · exact absurd ⟨by omega, by omega, hA.2.2⟩ hB
            · exact absurd ⟨by omega, by omega, hB.2.2⟩ hA
            · rfl
        · rw [ih2, hlen2]
          split_ifs <;> omega
        · rw [ih3, hlen2]
          cases od
          · simp only [Bool.false_eq_true, if_false]
            have hu : i + 1 + cnt = i + (cnt + 1) := by omega
            rw [hu]
            set u := min (i + (cnt + 1)) bits.length with hudef
            have hui : i + 1 ≤ u := by omega
            have hsplit : List.range' i (u - i) = i :: List.range' (i + 1) (u - (i + 1)) := by
              have hcnt : u - i = (u - (i + 1)) + 1 := by omega
              rw [hcnt, List.range'_succ]
            rw [hsplit, List.any_cons]
            have hci : claimedAtB bits i = false := by simp [claimedAtB, h]
            rw [hci, Bool.false_or]
            have hcong : ∀ x ∈ List.range' (i + 1) (u - (i + 1)),
                claimedAtB (bits.set i (some r)) x = claimedAtB bits x := by
              intro x hx
              have hxi : i + 1 ≤ x := (List.mem_range'_1.mp hx).1
              simp [claimedAtB, List.getElem?_set_ne (by omega : i ≠ x)]
            rw [anyCongr hcong]
          · rfl
        · intro hlt hpos
          rw [ih4 (by omega) (by omega), hlen2]
      | some other =>
        rw [claimGo_cons_claimed r i _ od bits other h]
        obtain ⟨ih1, ih2, ih3, ih4⟩ := ih (i + 1) true bits
        have hgetj : ∀ j, (claimGo r (List.range' (i + 1) cnt) true bits).1[j]? =
            if i ≤ j ∧ j < i + (cnt + 1) ∧ bits[j]? = some none then some (some r)
            else bits[j]? := by
          intro j
          rw [ih1 j]
          split_ifs with hA hB hB
          · rfl
          · exact absurd ⟨by omega, by omega, hA.2.2⟩ hB
          · rcases (by omega : j = i ∨ i + 1 ≤ j) with hj | hj
            · subst hj
              rw [h] at hB
              exact absurd hB.2.2 (by simp)
            · exact absurd ⟨hj, by omega, hB.2.2⟩ hA
          · rfl
        have hcntB : (claimGo r (List.range' (i + 1) cnt) true bits).2.countP TableMsg.isBounds =
            if bits.length < i + (cnt + 1) ∧ 0 < cnt + 1 then 1 else 0 := by
          rw [ih2]; split_ifs <;> omega
        have hlastB : bits.length < i + (cnt + 1) → 0 < cnt + 1 →
            (claimGo r (List.range' (i + 1) cnt) true bits).2.getLast? =
              some (TableMsg.notInsideBounds r bits.length) := by
          intro hlt _
          exact ih4 (by omega) (by omega)
        cases od
        · rw [if_neg (by simp)]
          refine ⟨hgetj, ?_, ?_, ?_⟩
          · rw [List.countP_cons, hcntB]
            simp [TableMsg.isBounds]
          · rw [List.countP_cons, ih3]
            simp only [TableMsg.isOverlap, if_pos, Bool.false_eq_true, if_false]
            have hu : i + 1 ≤ min (i + (cnt + 1)) bits.length := by omega
            have hsplit : List.range' i (min (i + (cnt + 1)) bits.length - i) =
                i :: List.range' (i + 1) (min (i + (cnt + 1)) bits.length - (i + 1)) := by
              have hcnt2 : min (i + (cnt + 1)) bits.length - i =
                  (min (i + (cnt + 1)) bits.length - (i + 1)) + 1 := by omega
              rw [hcnt2, List.range'_succ]
            rw [hsplit, List.any_cons]
            have hci : claimedAtB bits i = true := by simp [claimedAtB, h]
            rw [hci, Bool.true_or, if_pos rfl]
          · intro hlt hpos
            rw [List.getLast?_cons, hlastB hlt hpos]
            rfl
        · rw [if_pos rfl]
          refine ⟨hgetj, hcntB, ?_, hlastB⟩
          rw [ih3]
          simp

theorem processFunction_length (bits : List (Option BitRange)) (f : RegisterFunction) :
    (processFunction bits f).1.length = bits.length :=
  claimGo_length f.range _ false bits

theorem processFunction_overlapCount_le_one (bits : List (Option BitRange))
    (f : RegisterFunction) :
    (processFunction bits f).2.countP TableMsg.isOverlap ≤ 1 := by
  have h := (claimGo_spec f.range (f.range.msb + 1 - f.range.lsb) f.range.lsb false bits).2.2.1
  unfold processFunction
  rw [h]
  split_ifs <;> simp

theorem processFunction_msgs_nil_inbounds (bits : List (Option BitRange))
    (f : RegisterFunction) (hwf : f.range.lsb ≤ f.range.msb)
    (hnil : (processFunction bits f).2 = []) : f.range.msb < bits.length := by
  have h := (claimGo_spec f.range (f.range.msb + 1 - f.range.lsb) f.range.lsb false bits).2.1
  unfold processFunction at hnil
  rw [hnil] at h
  simp only [List.countP_nil] at h
  by_contra hge
  rw [if_pos ⟨by omega, by omega⟩] at h
  omega

theorem processFunctions_length :
    ∀ (fns : List RegisterFunction) (bits : List (Option BitRange)),
      (processFunctions fns bits).1.length = bits.length := by
  intro fns
  induction fns with
  | nil => intro bits; rfl
  | cons f rest ih =>
    intro bits
    simp only [processFunctions]
    rw [ih, processFunction_length]

theorem processFunctions_msgs_nil :
    ∀ (fns : List RegisterFunction) (bits : List (Option BitRange)),
      (processFunctions fns bits).2 = [] →
      ∀ f ∈ fns, f.range.lsb ≤ f.range.msb → f.range.msb < bits.length := by
  intro fns
  induction fns with
  | nil => intro bits _ f hf; exact absurd hf (by simp)
  | cons g rest ih =>
    intro bits hnil f hf hwf
    simp only [processFunctions] at hnil
    rcases List.append_eq_nil.mp hnil with ⟨h1, h2⟩
    rcases List.mem_cons.mp hf with hfg | hfr
    · subst hfg
      exact processFunction_msgs_nil_inbounds bits f hwf h1
    · have := ih (processFunction bits g).1 h2 f hfr hwf
      rwa [processFunction_length] at this

/-! ## Claim theorems -/

/-- C1 (code bug evidence): the root table `c1Root` keeps its registers under
a group table and validates with zero diagnostics, yet the returned model's
`registers` field is `None` — `check_root_table` builds the group vector and
never stores it. -/
theorem c1_groups_are_dropped :
    lookupKey c1Root "register" =
      some (Toml.table [("g", Toml.arr [Toml.table c1RegTable])]) ∧
    (check_root_table c1Root).toOption.map (fun pf => pf.registers.isNone) = some true :=
  ⟨rfl, rfl⟩

/-- C2 (counterexample): ranges `3:0` and `3:2` overlap in register
`c2CexReg`, but the coverage check emits no `ConstraintError` naming that
pair — the only overlap report of function `3:0` names `1:0`, and the
per-function suppression flag silences its later overlap with `3:2`. -/
theorem c2_pair_overlap_unreported :
    BitRange.overlaps ⟨3, 0⟩ ⟨3, 2⟩ = true ∧
    (check_functions c2CexReg).filter (TableMsg.namesPair ⟨3, 0⟩ ⟨3, 2⟩) = [] ∧
    check_functions c2CexReg = [TableMsg.overlap ⟨3, 0⟩ ⟨1, 0⟩] := by
  refine ⟨by decide, by decide, by decide⟩

/-- C2 (amended): each function produces at most one overlap
`ConstraintError` — at its first bit already claimed, naming its range and
the claiming function's range — and all further overlapping bits of that
function (with any function) are not re-reported; the two-function register
with ranges `3:0` and `4:1` yields exactly one overlap error. -/
theorem c2_overlap_suppressed_per_function :
    (∀ (bits : List (Option BitRange)) (f : RegisterFunction),
      (processFunction bits f).2.countP TableMsg.isOverlap ≤ 1) ∧
    (check_functions c2ScenarioReg).filter TableMsg.isOverlap =
      [TableMsg.overlap ⟨4, 1⟩ ⟨3, 0⟩] :=
  ⟨processFunction_overlapCount_le_one, by decide⟩

/-- C4: for a bit range with `msb ≥ lsb`, `bit_count` is `msb - lsb + 1` and
`max_value` is `2 ^ bit_count - 1` up to width 63, the full u64 range at
width 64, and an error beyond; in particular `max_value (7, 4) = 0xF`. -/
theorem c4_bit_range_max_value (r : BitRange) (_h : r.lsb ≤ r.msb) :
    r.bit_count = r.msb - r.lsb + 1 ∧
    (r.bit_count ≤ 63 → r.max_value = some (2 ^ r.bit_count - 1)) ∧
    (r.bit_count = 64 → r.max_value = some (2 ^ 64 - 1)) ∧
    (64 < r.bit_count → r.max_value = none) ∧
    BitRange.max_value ⟨7, 4⟩ = some 15 := by
  refine ⟨rfl, ?_, ?_, ?_, by decide⟩
  · intro hle
    unfold BitRange.max_value
    rw [if_neg (by omega), if_neg (by omega)]
  · intro he
    unfold BitRange.max_value
    rw [if_neg (by omega), if_pos he]
  · intro hgt
    unfold BitRange.max_value
    rw [if_pos (by omega)]

/-- Witness for C4 at the range `(msb = 7, lsb = 4)`. -/
theorem c4_bit_range_max_value_witness :
    BitRange.bit_count ⟨7, 4⟩ = 4 ∧ BitRange.max_value ⟨7, 4⟩ = some 15 := by
  have h := c4_bit_range_max_value ⟨7, 4⟩ (by decide)
  exact ⟨by decide, h.2.2.2.2⟩

/-- C8: the generated accessor has `write()` exactly for writable registers
without reserved bit fields; `read()` and `modify()` depend only on the
access mode. -/
theorem c8_write_method_iff (r : Register) :
    (GenMethod.writeM ∈ register_struct_impl_methods r ↔
      ((r.access_mode = AccessMode.write ∨ r.access_mode = AccessMode.readWrite) ∧
        r.contains_reserved_bit_fields = false)) ∧
    (GenMethod.readM ∈ register_struct_impl_methods r ↔
      (r.access_mode = AccessMode.read ∨ r.access_mode = AccessMode.readWrite)) ∧
    (GenMethod.modifyM ∈ register_struct_impl_methods r ↔
      r.access_mode = AccessMode.readWrite) := by
  cases ham : r.access_mode <;> cases hcr : r.contains_reserved_bit_fields <;>
    simp [register_struct_impl_methods, ham, hcr]

/-- Witness for C8: a read-write register with a reserved bit field gets
`read` and `modify` but no `write`. -/
theorem c8_write_method_iff_witness :
    GenMethod.writeM ∉ register_struct_impl_methods
      ⟨"R", .readWrite, .size8, .absolute 0, none,
       [⟨⟨0, 0⟩, .normal "f" none⟩, ⟨⟨7, 1⟩, .reserved⟩], [], none⟩ ∧
    GenMethod.readM ∈ register_struct_impl_methods
      ⟨"R", .readWrite, .size8, .absolute 0, none,
       [⟨⟨0, 0⟩, .normal "f" none⟩, ⟨⟨7, 1⟩, .reserved⟩], [], none⟩ := by
  have h := c8_write_method_iff
    ⟨"R", .readWrite, .size8, .absolute 0, none,
     [⟨⟨0, 0⟩, .normal "f" none⟩, ⟨⟨7, 1⟩, .reserved⟩], [], none⟩
  refine ⟨fun hmem => ?_, h.2.1.mpr (by decide)⟩
  have := h.1.mp hmem
  revert this
  decide

/-- C10: a function range reaching past the slot array produces exactly one
out-of-bounds `ConstraintError`, that error ends the function's processing
(it is the last message), its in-bounds unclaimed bits are still claimed,
and it reports at most one overlap. -/
theorem c10_out_of_bounds_function (size : Nat) (bits : List (Option BitRange))
    (f : RegisterFunction) (hlen : bits.length = size)
    (hwf : f.range.lsb ≤ f.range.msb) (hoob : size ≤ f.range.msb) :
    (processFunction bits f).2.countP TableMsg.isBounds = 1 ∧
    (processFunction bits f).2.getLast? = some (TableMsg.notInsideBounds f.range size) ∧
    (∀ j, (processFunction bits f).1[j]? =
      if f.range.lsb ≤ j ∧ bits[j]? = some none then some (some f.range) else bits[j]?) ∧
    (processFunction bits f).2.countP TableMsg.isOverlap ≤ 1 := by
  obtain ⟨h1, h2, h3, h4⟩ :=
    claimGo_spec f.range (f.range.msb + 1 - f.range.lsb) f.range.lsb false bits
  subst hlen
  refine ⟨?_, ?_, ?_, processFunction_overlapCount_le_one bits f⟩
  · unfold processFunction
    rw [h2, if_pos ⟨by omega, by omega⟩]
  · unfold processFunction
    exact h4 (by omega) (by omega)
  · intro j
    unfold processFunction
    rw [h1 j]
    split_ifs with hA hB hB
    · rfl
    · exact absurd ⟨hA.1, hA.2.2⟩ hB
    · have hjlen := (List.getElem?_eq_some_iff.mp hB.2).1
      exact absurd ⟨hB.1, by omega, hB.2⟩ hA
    · rfl

/-- Witness for C10: range `5:2` against a 4-bit slot array. -/
theorem c10_out_of_bounds_function_witness :
    (processFunction (List.replicate 4 none) c10WFun).2.countP TableMsg.isBounds = 1 ∧
    (processFunction (List.replicate 4 none) c10WFun).2.getLast? =
      some (TableMsg.notInsideBounds ⟨5, 2⟩ 4) ∧
    (processFunction (List.replicate 4 none) c10WFun).1[3]? = some (some ⟨5, 2⟩) := by
  have h := c10_out_of_bounds_function 4 (List.replicate 4 none) c10WFun
    (by decide) (by decide) (by decide)
  exact ⟨h.1, h.2.1, by decide⟩

theorem checkOneEnum_seen (fns : List RegisterFunction) (seen : List BitRange)
    (e : RegisterEnum) :
    (checkOneEnum fns seen e).2.2 =
      if enumRangeMatched fns e ∧ ¬ enumReservedMatched fns e
      then e.range :: seen else seen := by
  unfold checkOneEnum
  split_ifs with h1 h2 h3 h4 <;> first
    | rfl
    | (cases hmv : e.range.max_value <;> simp_all)

theorem checkOneEnum_fields (fns : List RegisterFunction) (seen : List BitRange)
    (e : RegisterEnum) :
    (checkOneEnum fns seen e).1.range = e.range ∧
    (checkOneEnum fns seen e).1.values = e.values ∧
    (checkOneEnum fns seen e).1.name = e.name := by
  unfold checkOneEnum
  split_ifs with h1 h2 h3 <;> first
    | exact ⟨rfl, rfl, rfl⟩
    | (cases hmv : e.range.max_value
       · exact ⟨rfl, rfl, rfl⟩
       · dsimp only
         split_ifs <;> exact ⟨rfl, rfl, rfl⟩)

theorem checkOneEnum_flag (fns : List RegisterFunction) (seen : List BitRange)
    (e : RegisterEnum) (hfl : e.all_possible_values_are_defined = false) :
    ((checkOneEnum fns seen e).1.all_possible_values_are_defined = true ↔
      (enumRangeMatched fns e = true ∧ enumReservedMatched fns e = false ∧
        e.range ∉ seen ∧
        e.range.max_value.map (· + 1) = some e.values.length)) := by
  by_cases h1 : enumRangeMatched fns e = true
  · by_cases h2 : enumReservedMatched fns e = true
    · unfold checkOneEnum
      rw [if_neg (by simpa using h1), if_pos h2]
      dsimp only
      rw [hfl]
      constructor
      · intro hc; cases hc
      · rintro ⟨_, hr, _⟩
        rw [h2] at hr
        cases hr
    · by_cases h3 : e.range ∈ seen
      · unfold checkOneEnum
        rw [if_neg (by simpa using h1), if_neg h2, if_pos h3]
        dsimp only
        rw [hfl]
        constructor
        · intro hc; cases hc
        · rintro ⟨_, _, hn, _⟩
          exact absurd h3 hn
      · unfold checkOneEnum
        rw [if_neg (by simpa using h1), if_neg h2, if_neg h3]
        cases hmv : e.range.max_value with
        | none =>
          dsimp only
          rw [hfl]
          constructor
          · intro hc; cases hc
          · rintro ⟨_, _, _, hm⟩
            exact absurd hm (by simp)
        | some maxV =>
          dsimp only
          by_cases hlen : e.values.length = maxV + 1
          · rw [if_pos hlen]
            refine ⟨fun _ => ⟨h1, by simpa using h2, h3, ?_⟩, fun _ => rfl⟩
            rw [hlen]
            rfl
          · rw [if_neg hlen]
            rw [hfl]
            constructor
            · intro hc; cases hc
            · rintro ⟨_, _, _, hm⟩
              simp only [Option.map_some'] at hm
              exact absurd (Option.some.inj hm).symm hlen
  · unfold checkOneEnum
    rw [if_pos (by simpa using h1)]
    dsimp only
    rw [hfl]
    constructor
    · intro hc; cases hc
    · rintro ⟨hm, _⟩
      exact absurd hm h1

theorem checkEnumsGo_get? (fns : List RegisterFunction) :
    ∀ (es : List RegisterEnum) (seen : List BitRange) (i : Nat) (e : RegisterEnum),
      es[i]? = some e →
      ((checkEnumsGo fns seen es).1)[i]? =
        some ((checkOneEnum fns (seenAfter fns seen (es.take i)) e).1) := by
  intro es
  induction es with
  | nil => intro seen i e he; simp at he
  | cons x rest ih =>
    intro seen i e he
    have hc : (checkEnumsGo fns seen (x :: rest)).1 =
        (checkOneEnum fns seen x).1 ::
          (checkEnumsGo fns (checkOneEnum fns seen x).2.2 rest).1 := rfl
    cases i with
    | zero =>
      rw [List.getElem?_cons_zero] at he
      obtain rfl := Option.some.inj he
      rw [hc, List.getElem?_cons_zero]
      rfl
    | succ n =>
      rw [List.getElem?_cons_succ] at he
      rw [hc, List.getElem?_cons_succ,
        ih ((checkOneEnum fns seen x).2.2) n e he, checkOneEnum_seen]
      rfl

theorem checkEnumsGo_msgs_nil (fns : List RegisterFunction) :
    ∀ (es : List RegisterEnum) (seen : List BitRange),
      (checkEnumsGo fns seen es).2 = [] →
      ∀ (i : Nat) (e : RegisterEnum), es[i]? = some e →
        (checkOneEnum fns (seenAfter fns seen (es.take i)) e).2.1 = [] := by
  intro es
  induction es with
  | nil => intro seen _ i e he; simp at he
  | cons x rest ih =>
    intro seen hnil i e he
    have hsplit : (checkOneEnum fns seen x).2.1 = [] ∧
        (checkEnumsGo fns (checkOneEnum fns seen x).2.2 rest).2 = [] := by
      have : (checkEnumsGo fns seen (x :: rest)).2 =
          (checkOneEnum fns seen x).2.1 ++
            (checkEnumsGo fns (checkOneEnum fns seen x).2.2 rest).2 := rfl
      rw [this] at hnil
      exact List.append_eq_nil.mp hnil
    cases i with
    | zero =>
      rw [List.getElem?_cons_zero] at he
      obtain rfl := Option.some.inj he
      exact hsplit.1
    | succ n =>
      rw [List.getElem?_cons_succ] at he
      have := ih ((checkOneEnum fns seen x).2.2) hsplit.2 n e he
      rw [checkOneEnum_seen] at this
      exact this

/-- C5 (amended): after the semantic checker runs on a register whose enums
start unflagged, an enum's `is_complete` flag is true iff it passes the
matching guards (its range equals some function's range, no function with
that range is reserved, no earlier guard-passing enum has the same range,
the range is at most 64 bits wide) and its value count equals
`max_value + 1`. -/
theorem c5_is_complete_characterisation (r : Register)
    (hflags : ∀ e ∈ r.enums, e.all_possible_values_are_defined = false)
    (i : Nat) (e e' : RegisterEnum)
    (he : r.enums[i]? = some e)
    (he' : (check_register_enums r).1.enums[i]? = some e') :
    e'.all_possible_values_are_defined = true ↔
      (enumRangeMatched r.functions e = true ∧
       enumReservedMatched r.functions e = false ∧
       e.range ∉ seenAfter r.functions [] (r.enums.take i) ∧
       e.range.max_value.map (· + 1) = some e.values.length) := by
  have hget := checkEnumsGo_get? r.functions r.enums [] i e he
  have hre : (check_register_enums r).1.enums = (checkEnumsGo r.functions [] r.enums).1 := rfl
  rw [hre, hget] at he'
  obtain rfl := Option.some.inj he'
  exact checkOneEnum_flag r.functions _ e (hflags e (List.getElem?_mem he))

/-- C5 counterexample input facts: in `c5CexReg` the enum has
`max_value + 1 = 4` values, yet after the semantic checker its
`is_complete` flag is still false (its range matches no function). -/
theorem c5_incomplete_flag_counterexample :
    (check_register_enums c5CexReg).1.enums.map
      (·.all_possible_values_are_defined) = [false] ∧
    c5CexReg.enums.map (fun e => e.values.length) = [4] ∧
    BitRange.max_value ⟨2, 1⟩ = some 3 ∧
    (check_register_enums c5CexReg).2 = [TableMsg.enumNoMatch "e"] := by
  refine ⟨by decide, by decide, by decide, by decide⟩

/-- Witness for C5: the characterisation applied to a fully valid register
with 4 of 4 values (flag set) and to one with 3 of 4 values (flag clear). -/
theorem c5_is_complete_characterisation_witness :
    ((check_register_enums c5WReg).1.enums[0]?.map
        (·.all_possible_values_are_defined)) = some true ∧
    ((check_register_enums c5WReg3).1.enums[0]?.map
        (·.all_possible_values_are_defined)) = some false := by
  constructor
  · have h := c5_is_complete_characterisation c5WReg (by decide) 0
      ⟨"e", ⟨1, 0⟩,
        [⟨0, "v0", none⟩, ⟨1, "v1", none⟩, ⟨2, "v2", none⟩, ⟨3, "v3", none⟩],
        none, false⟩
      ⟨"e", ⟨1, 0⟩,
        [⟨0, "v0", none⟩, ⟨1, "v1", none⟩, ⟨2, "v2", none⟩, ⟨3, "v3", none⟩],
        none, true⟩ rfl rfl
    have hflag := h.mpr (by decide)
    rw [show (check_register_enums c5WReg).1.enums[0]? =
      some ⟨"e", ⟨1, 0⟩,
        [⟨0, "v0", none⟩, ⟨1, "v1", none⟩, ⟨2, "v2", none⟩, ⟨3, "v3", none⟩],
        none, true⟩ from rfl]
    rw [Option.map_some', hflag]
  · have h := c5_is_complete_characterisation c5WReg3 (by decide) 0
      ⟨"e", ⟨1, 0⟩,
        [⟨0, "v0", none⟩, ⟨1, "v1", none⟩, ⟨2, "v2", none⟩],
        none, false⟩
      ⟨"e", ⟨1, 0⟩,
        [⟨0, "v0", none⟩, ⟨1, "v1", none⟩, ⟨2, "v2", none⟩],
        none, false⟩ rfl rfl
    have hflag : (⟨"e", ⟨1, 0⟩,
        [⟨0, "v0", none⟩, ⟨1, "v1", none⟩, ⟨2, "v2", none⟩],
        none, false⟩ : RegisterEnum).all_possible_values_are_defined = false := by
      cases hb : (⟨"e", ⟨1, 0⟩,
          [⟨0, "v0", none⟩, ⟨1, "v1", none⟩, ⟨2, "v2", none⟩],
          none, false⟩ : RegisterEnum).all_possible_values_are_defined
      · rfl
      · exact absurd (h.mp hb) (by decide)
    rw [show (check_register_enums c5WReg3).1.enums[0]? =
      some ⟨"e", ⟨1, 0⟩,
        [⟨0, "v0", none⟩, ⟨1, "v1", none⟩, ⟨2, "v2", none⟩],
        none, false⟩ from rfl]
    rw [Option.map_some', hflag]

theorem claimedAtB_nil (d : Nat) : claimedAtB [] d = false := by
  simp [claimedAtB]

theorem claimedAtB_cons_succ (b : Option BitRange) (l : List (Option BitRange)) (d : Nat) :
    claimedAtB (b :: l) (d + 1) = claimedAtB l d := by
  unfold claimedAtB
  rw [List.getElem?_cons_succ]

theorem claimedAtB_cons_zero_some (x : BitRange) (l : List (Option BitRange)) :
    claimedAtB (some x :: l) 0 = true := by
  simp [claimedAtB, List.getElem?_cons_zero]

theorem claimedAtB_cons_zero_none (l : List (Option BitRange)) :
    claimedAtB (none :: l) 0 = false := by
  simp [claimedAtB, List.getElem?_cons_zero]

theorem runsGo_mem :
    ∀ (rest : List (Option BitRange)) (i : Nat) (st : Option Nat) (r : BitRange),
      (∀ l, st = some l → l < i) →
      (r ∈ runsGo i st rest ↔ runsGoSpec i st rest r) := by
  intro rest
  induction rest with
  | nil =>
    intro i st r hst
    cases st with
    | none =>
      constructor
      · intro h; simp [runsGo] at h
      · rintro (⟨l, hl, _⟩ | ⟨hlm, _, _, hall, _⟩)
        · cases hl
        · have hmem : r.lsb ∈ List.range' r.lsb (r.msb + 1 - r.lsb) := by
            rw [List.mem_range'_1]; omega
          have := hall r.lsb hmem
          simp at this
    | some l =>
      have hli : l < i := hst l rfl
      constructor
      · intro h
        simp only [runsGo, List.mem_singleton] at h
        subst h
        left
        refine ⟨l, rfl, rfl, by simp; omega, ?_, Or.inl (by simp; omega)⟩
        intro k hk
        rw [List.mem_range'_1] at hk
        simp at hk
        omega
      · rintro (⟨l', hl', hlsb, hile, _, hclose⟩ | ⟨hlm, _, _, hall, _⟩)
        · obtain rfl := Option.some.inj hl'
          have hmsb : r.msb + 1 = i := by
            rcases hclose with h1 | h2
            · simpa using h1
            · rw [claimedAtB_nil] at h2; cases h2
          simp only [runsGo, List.mem_singleton]
          cases r with
          | mk msb lsb =>
            rw [BitRange.mk.injEq]
            simp only at hmsb hlsb
            exact ⟨by omega, hlsb⟩
        · have hmem : r.lsb ∈ List.range' r.lsb (r.msb + 1 - r.lsb) := by
            rw [List.mem_range'_1]; omega
          have := hall r.lsb hmem
          simp at this
  | cons b rest' ih =>
    intro i st r hst
    cases b with
    | some x =>
      cases st with
      | none =>
        have hrw : runsGo i none (some x :: rest') = runsGo (i + 1) none rest' := rfl
        rw [hrw, ih (i + 1) none r (by intro l hl; cases hl)]
        constructor
        · rintro (⟨l, hl, _⟩ | ⟨hlm, hil, hstart, hall, hclose⟩)
          · cases hl
          · right
            refine ⟨hlm, by omega, ?_, ?_, ?_⟩
            · rcases hstart with ⟨he, _⟩ | ⟨hge, hcl⟩
              · refine Or.inr ⟨by omega, ?_⟩
                rw [show r.lsb - 1 - i = 0 by omega]
                exact claimedAtB_cons_zero_some x rest'
              · refine Or.inr ⟨by omega, ?_⟩
                rw [show r.lsb - 1 - i = (r.lsb - 1 - (i + 1)) + 1 by omega,
                  claimedAtB_cons_succ]
                exact hcl
            · intro k hk
              have hk' := List.mem_range'_1.mp hk
              have hx := hall k hk
              rw [show k - i = (k - (i + 1)) + 1 by omega, List.getElem?_cons_succ]
              exact hx
            · rcases hclose with h1 | h2
              · left; rw [List.length_cons]; omega
              · right
                rw [show r.msb + 1 - i = (r.msb + 1 - (i + 1)) + 1 by omega,
                  claimedAtB_cons_succ]
                exact h2
        · rintro (⟨l, hl, _⟩ | ⟨hlm, hil, hstart, hall, hclose⟩)
          · cases hl
          · have hlsb1 : i + 1 ≤ r.lsb := by
              rcases Nat.lt_or_ge r.lsb (i + 1) with hlt | hge
              · exfalso
                have hmem : r.lsb ∈ List.range' r.lsb (r.msb + 1 - r.lsb) := by
                  rw [List.mem_range'_1]; omega
                have hx := hall r.lsb hmem
                rw [show r.lsb - i = 0 by omega, List.getElem?_cons_zero] at hx
                cases hx
              · exact hge
            right
            refine ⟨hlm, hlsb1, ?_, ?_, ?_⟩
            · rcases hstart with ⟨he, _⟩ | ⟨hge, hcl⟩
              · exact absurd he (by omega)
              · rcases Nat.lt_or_ge r.lsb (i + 2) with hlt | hge2
                · exact Or.inl ⟨by omega, rfl⟩
                · refine Or.inr ⟨by omega, ?_⟩
                  rw [show r.lsb - 1 - i = (r.lsb - 1 - (i + 1)) + 1 by omega,
                    claimedAtB_cons_succ] at hcl
                  exact hcl
            · intro k hk
              have hk' := List.mem_range'_1.mp hk
              have hx := hall k hk
              rw [show k - i = (k - (i + 1)) + 1 by omega, List.getElem?_cons_succ] at hx
              exact hx
            · rcases hclose with h1 | h2
              · left; rw [List.length_cons] at h1; omega
              · right
                rw [show r.msb + 1 - i = (r.msb + 1 - (i + 1)) + 1 by omega,
                  claimedAtB_cons_succ] at h2
                exact h2
      | some l =>
        have hli : l < i := hst l rfl
        have hrw : runsGo i (some l) (some x :: rest') =
            ⟨i - 1, l⟩ :: runsGo (i + 1) none rest' := rfl
        rw [hrw, List.mem_cons, ih (i + 1) none r (by intro l' hl'; cases hl')]
        constructor
        · rintro (heq | hrec)
          · subst heq
            left
            refine ⟨l, rfl, rfl, by simp; omega, ?_, Or.inr ?_⟩
            · intro k hk
              rw [List.mem_range'_1] at hk
              simp at hk
              omega
            · rw [show (⟨i - 1, l⟩ : BitRange).msb + 1 - i = 0 by simp; omega]
              exact claimedAtB_cons_zero_some x rest'
          · rcases hrec with ⟨l', hl', _⟩ | ⟨hlm, hil, hstart, hall, hclose⟩
            · cases hl'
            · right
              refine ⟨hlm, by omega, ?_, ?_, ?_⟩
              · rcases hstart with ⟨he, _⟩ | ⟨hge, hcl⟩
                · refine Or.inr ⟨by omega, ?_⟩
                  rw [show r.lsb - 1 - i = 0 by omega]
                  exact claimedAtB_cons_zero_some x rest'
                · refine Or.inr ⟨by omega, ?_⟩
                  rw [show r.lsb - 1 - i = (r.lsb - 1 - (i + 1)) + 1 by omega,
                    claimedAtB_cons_succ]
                  exact hcl
              · intro k hk
                have hk' := List.mem_range'_1.mp hk
                have hx := hall k hk
                rw [show k - i = (k - (i + 1)) + 1 by omega, List.getElem?_cons_succ]
                exact hx
              · rcases hclose with h1 | h2
                · left; rw [List.length_cons]; omega
                · right
                  rw [show r.msb + 1 - i = (r.msb + 1 - (i + 1)) + 1 by omega,
                    claimedAtB_cons_succ]
                  exact h2
        · rintro (⟨l', hl', hlsb, hile, hall, hclose⟩ | ⟨hlm, hil, hstart, hall, hclose⟩)
          · obtain rfl := Option.some.inj hl'
            left
            have hmsb : r.msb + 1 = i := by
              rcases Nat.lt_or_ge (r.msb + 1) (i + 1) with hlt | hge
              · omega
              · exfalso
                have hmem : i ∈ List.range' i (r.msb + 1 - i) := by
                  rw [List.mem_range'_1]; omega
                have hx := hall i hmem
                rw [show i - i = 0 by omega, List.getElem?_cons_zero] at hx
                cases hx
            cases r with
            | mk msb lsb =>
              rw [BitRange.mk.injEq]
              simp only at hmsb hlsb
              exact ⟨by omega, hlsb⟩
          · right
            rcases hstart with ⟨_, hne⟩ | ⟨hge, hcl⟩
            · cases hne
            · right
              refine ⟨hlm, hge, ?_, ?_, ?_⟩
              · rcases Nat.lt_or_ge r.lsb (i + 2) with hlt | hge2
                · exact Or.inl ⟨by omega, rfl⟩
                · refine Or.inr ⟨by omega, ?_⟩
                  rw [show r.lsb - 1 - i = (r.lsb - 1 - (i + 1)) + 1 by omega,
                    claimedAtB_cons_succ] at hcl
                  exact hcl
              · intro k hk
                have hk' := List.mem_range'_1.mp hk
                have hx := hall k hk
                rw [show k - i = (k - (i + 1)) + 1 by omega, List.getElem?_cons_succ] at hx
                exact hx
              · rcases hclose with h1 | h2
                · left; rw [List.length_cons] at h1; omega
                · right
                  rw [show r.msb + 1 - i = (r.msb + 1 - (i + 1)) + 1 by omega,
                    claimedAtB_cons_succ] at h2
                  exact h2
    | none =>
      cases st with
      | none =>
        have hrw : runsGo i none (none :: rest') = runsGo (i + 1) (some i) rest' := rfl
        rw [hrw, ih (i + 1) (some i) r
          (by intro l' hl'; obtain rfl := Option.some.inj hl'; omega)]
        constructor
        · rintro (⟨l', hl', hlsb, hile, hall, hclose⟩ | ⟨hlm, hil, hstart, hall, hclose⟩)
          · obtain rfl := Option.some.inj hl'
            right
            refine ⟨?_, by omega, Or.inl ⟨hlsb, rfl⟩, ?_, ?_⟩
            · omega
            · intro k hk
              have hk' := List.mem_range'_1.mp hk
              by_cases hki : k = i
              · subst hki
                rw [show k - k = 0 by omega]
                exact List.getElem?_cons_zero
              · have hx := hall k (by rw [List.mem_range'_1]; omega)
                rw [show k - i = (k - (i + 1)) + 1 by omega, List.getElem?_cons_succ]
                exact hx
            · rcases hclose with h1 | h2
              · left; rw [List.length_cons]; omega
              · right
                rw [show r.msb + 1 - i = (r.msb + 1 - (i + 1)) + 1 by omega,
                  claimedAtB_cons_succ]
                exact h2
          · right
            rcases hstart with ⟨_, hne⟩ | ⟨hge, hcl⟩
            · cases hne
            · refine ⟨hlm, by omega, Or.inr ⟨by omega, ?_⟩, ?_, ?_⟩
              · rw [show r.lsb - 1 - i = (r.lsb - 1 - (i + 1)) + 1 by omega,
                  claimedAtB_cons_succ]
                exact hcl
              · intro k hk
                have hk' := List.mem_range'_1.mp hk
                have hx := hall k hk
                rw [show k - i = (k - (i + 1)) + 1 by omega, List.getElem?_cons_succ]
                exact hx
              · rcases hclose with h1 | h2
                · left; rw [List.length_cons]; omega
                · right
                  rw [show r.msb + 1 - i = (r.msb + 1 - (i + 1)) + 1 by omega,
                    claimedAtB_cons_succ]
                  exact h2
        · rintro (⟨l', hl', _⟩ | ⟨hlm, hil, hstart, hall, hclose⟩)
          · cases hl'
          · by_cases he : r.lsb = i
            · left
              refine ⟨i, rfl, he, by omega, ?_, ?_⟩
              · intro k hk
                have hk' := List.mem_range'_1.mp hk
                have hx := hall k (by rw [List.mem_range'_1]; omega)
                rw [show k - i = (k - (i + 1)) + 1 by omega, List.getElem?_cons_succ] at hx
                exact hx
              · rcases hclose with h1 | h2
                · left; rw [List.length_cons] at h1; omega
                · right
                  rw [show r.msb + 1 - i = (r.msb + 1 - (i + 1)) + 1 by omega,
                    claimedAtB_cons_succ] at h2
                  exact h2
            · have h1 : i + 1 ≤ r.lsb := by omega
              rcases hstart with ⟨he', _⟩ | ⟨_, hcl⟩
              · exact absurd he' he
              · have h2 : i + 2 ≤ r.lsb := by
                  rcases Nat.lt_or_ge r.lsb (i + 2) with hlt | hge
                  · exfalso
                    rw [show r.lsb - 1 - i = 0 by omega, claimedAtB_cons_zero_none] at hcl
                    cases hcl
                  · exact hge
                right
                refine ⟨hlm, by omega, Or.inr ⟨by omega, ?_⟩, ?_, ?_⟩
                · rw [show r.lsb - 1 - i = (r.lsb - 1 - (i + 1)) + 1 by omega,
                    claimedAtB_cons_succ] at hcl
                  exact hcl
                · intro k hk
                  have hk' := List.mem_range'_1.mp hk
                  have hx := hall k hk
                  rw [show k - i = (k - (i + 1)) + 1 by omega, List.getElem?_cons_succ] at hx
                  exact hx
                · rcases hclose with h1' | h2'
                  · left; rw [List.length_cons] at h1'; omega
                  · right
                    rw [show r.msb + 1 - i = (r.msb + 1 - (i + 1)) + 1 by omega,
                      claimedAtB_cons_succ] at h2'
                    exact h2'
      | some l =>
        have hli : l < i := hst l rfl
        have hrw : runsGo i (some l) (none :: rest') = runsGo (i + 1) (some l) rest' := rfl
        rw [hrw, ih (i + 1) (some l) r
          (by intro l' hl'; obtain rfl := Option.some.inj hl'; omega)]
        constructor
        · rintro (⟨l', hl', hlsb, hile, hall, hclose⟩ | ⟨hlm, hil, hstart, hall, hclose⟩)
          · obtain rfl := Option.some.inj hl'
            left
            refine ⟨l, rfl, hlsb, by omega, ?_, ?_⟩
            · intro k hk
              have hk' := List.mem_range'_1.mp hk
              by_cases hki : k = i
              · subst hki
                rw [show k - k = 0 by omega]
                exact List.getElem?_cons_zero
              · have hx := hall k (by rw [List.mem_range'_1]; omega)
                rw [show k - i = (k - (i + 1)) + 1 by omega, List.getElem?_cons_succ]
                exact hx
            · rcases hclose with h1 | h2
              · left; rw [List.length_cons]; omega
              · right
                rw [show r.msb + 1 - i = (r.msb + 1 - (i + 1)) + 1 by omega,
                  claimedAtB_cons_succ]
                exact h2
          · right
            rcases hstart with ⟨_, hne⟩ | ⟨hge, hcl⟩
            · cases hne
            · refine ⟨hlm, by omega, Or.inr ⟨by omega, ?_⟩, ?_, ?_⟩
              · rw [show r.lsb - 1 - i = (r.lsb - 1 - (i + 1)) + 1 by omega,
                  claimedAtB_cons_succ]
                exact hcl
              · intro k hk
                have hk' := List.mem_range'_1.mp hk
                have hx := hall k hk
                rw [show k - i = (k - (i + 1)) + 1 by omega, List.getElem?_cons_succ]
                exact hx
              · rcases hclose with h1 | h2
                · left; rw [List.length_cons]; omega
                · right
                  rw [show r.msb + 1 - i = (r.msb + 1 - (i + 1)) + 1 by omega,
                    claimedAtB_cons_succ]
                  exact h2
        · rintro (⟨l', hl', hlsb, hile, hall, hclose⟩ | ⟨hlm, hil, hstart, hall, hclose⟩)
          · obtain rfl := Option.some.inj hl'
            left
            have hge : i + 1 ≤ r.msb + 1 := by
              rcases Nat.lt_or_ge (r.msb + 1) (i + 1) with hlt | hge2
              · exfalso
                rcases hclose with h1 | h2
                · rw [List.length_cons] at h1; omega
                · rw [show r.msb + 1 - i = 0 by omega, claimedAtB_cons_zero_none] at h2
                  cases h2
              · exact hge2
            refine ⟨l, rfl, hlsb, hge, ?_, ?_⟩
            · intro k hk
              have hk' := List.mem_range'_1.mp hk
              have hx := hall k (by rw [List.mem_range'_1]; omega)
              rw [show k - i = (k - (i + 1)) + 1 by omega, List.getElem?_cons_succ] at hx
              exact hx
            · rcases hclose with h1 | h2
              · left; rw [List.length_cons] at h1; omega
              · right
                rw [show r.msb + 1 - i = (r.msb + 1 - (i + 1)) + 1 by omega,
                  claimedAtB_cons_succ] at h2
                exact h2
          · have h1 : i + 1 ≤ r.lsb := by
              rcases hstart with ⟨_, hne⟩ | ⟨hge, _⟩
              · cases hne
              · omega
            rcases hstart with ⟨_, hne⟩ | ⟨_, hcl⟩
            · cases hne
            · have h2 : i + 2 ≤ r.lsb := by
                rcases Nat.lt_or_ge r.lsb (i + 2) with hlt | hge
                · exfalso
                  rw [show r.lsb - 1 - i = 0 by omega, claimedAtB_cons_zero_none] at hcl
                  cases hcl
                · exact hge
              right
              refine ⟨hlm, by omega, Or.inr ⟨by omega, ?_⟩, ?_, ?_⟩
              · rw [show r.lsb - 1 - i = (r.lsb - 1 - (i + 1)) + 1 by omega,
                  claimedAtB_cons_succ] at hcl
                exact hcl
              · intro k hk
                have hk' := List.mem_range'_1.mp hk
                have hx := hall k hk
                rw [show k - i = (k - (i + 1)) + 1 by omega, List.getElem?_cons_succ] at hx
                exact hx
              · rcases hclose with h1' | h2'
                · left; rw [List.length_cons] at h1'; omega
                · right
                  rw [show r.msb + 1 - i = (r.msb + 1 - (i + 1)) + 1 by omega,
                    claimedAtB_cons_succ] at h2'
                  exact h2'

theorem findRuns_mem (bits : List (Option BitRange)) (r : BitRange) :
    r ∈ findRuns bits ↔ specMaximalRun bits r := by
  unfold findRuns
  rw [runsGo_mem bits 0 none r (by intro l hl; cases hl)]
  unfold runsGoSpec specMaximalRun
  constructor
  · rintro (⟨l, hl, _⟩ | ⟨hlm, _, hstart, hall, hclose⟩)
    · cases hl
    · refine ⟨hlm, ?_, ?_, ?_⟩
      · intro k hk
        have hx := hall k hk
        rw [show k - 0 = k from by omega] at hx
        exact hx
      · rcases hstart with ⟨he, _⟩ | ⟨_, hcl⟩
        · exact Or.inl he
        · right
          rw [show r.lsb - 1 - 0 = r.lsb - 1 from by omega] at hcl
          exact hcl
      · rcases hclose with h1 | h2
        · left; omega
        · right
          rw [show r.msb + 1 - 0 = r.msb + 1 from by omega] at h2
          exact h2
  · rintro ⟨hlm, hall, hstart, hclose⟩
    right
    refine ⟨hlm, by omega, ?_, ?_, ?_⟩
    · by_cases hl0 : r.lsb = 0
      · exact Or.inl ⟨hl0, rfl⟩
      · rcases hstart with he | hcl
        · exact absurd he hl0
        · refine Or.inr ⟨by omega, ?_⟩
          rw [show r.lsb - 1 - 0 = r.lsb - 1 from by omega]
          exact hcl
    · intro k hk
      rw [show k - 0 = k from by omega]
      exact hall k hk
    · rcases hclose with h1 | h2
      · left; omega
      · right
        rw [show r.msb + 1 - 0 = r.msb + 1 from by omega]
        exact h2

theorem specUndefinedReport_holds (runs : List BitRange) :
    specUndefinedReport runs (undefinedMsgs runs) := by
  match runs with
  | [] => rfl
  | [r] =>
    simp only [specUndefinedReport, undefinedMsgs]
    split_ifs with h <;> rfl
  | r1 :: r2 :: rs => rfl

/-- C3: the undefined-bit scan reports exactly the maximal unclaimed runs —
`findRuns` computes precisely the runs satisfying the spec's maximal-run
description — and the report is empty for no runs, one singular message for
a single-bit run, one range message for a multi-bit run, and one combined
message naming every range for several runs. -/
theorem c3_undefined_runs_exact (reg : Register) :
    (∀ br, br ∈ findRuns (processFunctions reg.functions
        (List.replicate reg.size_in_bits.toNat none)).1 ↔
      specMaximalRun (processFunctions reg.functions
        (List.replicate reg.size_in_bits.toNat none)).1 br) ∧
    check_functions reg =
      (processFunctions reg.functions (List.replicate reg.size_in_bits.toNat none)).2 ++
        undefinedMsgs (findRuns (processFunctions reg.functions
          (List.replicate reg.size_in_bits.toNat none)).1) ∧
    specUndefinedReport
      (findRuns (processFunctions reg.functions (List.replicate reg.size_in_bits.toNat none)).1)
      (undefinedMsgs (findRuns (processFunctions reg.functions
        (List.replicate reg.size_in_bits.toNat none)).1)) :=
  ⟨fun br => findRuns_mem _ br, rfl, specUndefinedReport_holds _⟩

/-- Witness for C3: in `c3WReg` exactly bit 5 is unclaimed; the run `5:5` is
a maximal run and the emitted report uses the singular wording. -/
theorem c3_undefined_runs_exact_witness :
    (⟨5, 5⟩ : BitRange) ∈ findRuns (processFunctions c3WReg.functions
      (List.replicate c3WReg.size_in_bits.toNat none)).1 ∧
    check_functions c3WReg =
      [TableMsg.undefinedBit ⟨5, 5⟩] := by
  have h := c3_undefined_runs_exact c3WReg
  exact ⟨(h.1 ⟨5, 5⟩).mpr (by decide), by decide⟩

theorem checkValuesGo_nil (enumName : String) (maxV : Nat) :
    ∀ (vals : List RegisterEnumValue) (seen : List Nat),
      checkValuesGo enumName maxV seen vals = [] →
      (∀ v ∈ vals, v.value ≤ maxV ∧ v.value ∉ seen) ∧ (vals.map (·.value)).Nodup := by
  intro vals
  induction vals with
  | nil => intro seen _; exact ⟨by simp, by simp⟩
  | cons v rest ih =>
    intro seen hnil
    unfold checkValuesGo at hnil
    by_cases hv : maxV < v.value
    · rw [if_pos hv] at hnil; simp at hnil
    · by_cases hs : v.value ∈ seen
      · rw [if_neg hv, if_pos hs] at hnil; simp at hnil
      · rw [if_neg hv, if_neg hs] at hnil
        simp only [List.nil_append] at hnil
        obtain ⟨hall, hnd⟩ := ih (v.value :: seen) hnil
        refine ⟨?_, ?_⟩
        · intro w hw
          rcases List.mem_cons.mp hw with rfl | hwr
          · exact ⟨by omega, hs⟩
          · have hh := hall w hwr
            exact ⟨hh.1, fun hmem => hh.2 (List.mem_cons_of_mem _ hmem)⟩
        · rw [List.map_cons, List.nodup_cons]
          refine ⟨?_, hnd⟩
          intro hmem
          rcases List.mem_map.mp hmem with ⟨w, hw, hww⟩
          have hh := (hall w hw).2
          rw [hww] at hh
          exact hh (List.mem_cons_self _ _)

theorem nodup_bounded_complete {l : List Nat} {m : Nat} (hnd : l.Nodup)
    (hb : ∀ x ∈ l, x ≤ m) (hlen : l.length = m + 1) : ∀ x, x ≤ m → x ∈ l := by
  intro x hx
  have hsub : l.toFinset ⊆ Finset.range (m + 1) := by
    intro y hy
    rw [List.mem_toFinset] at hy
    rw [Finset.mem_range]
    exact Nat.lt_succ_of_le (hb y hy)
  have hcard : (Finset.range (m + 1)).card ≤ l.toFinset.card := by
    rw [Finset.card_range, List.toFinset_card_of_nodup hnd, hlen]
  have heq := Finset.eq_of_subset_of_card_le hsub hcard
  rw [← List.mem_toFinset, heq, Finset.mem_range]
  omega

theorem matchVariant_isSome :
    ∀ (vals : List RegisterEnumValue) (v : Nat), v ∈ vals.map (·.value) →
      (matchVariant vals v).isSome = true := by
  intro vals
  induction vals with
  | nil => intro v hv; simp at hv
  | cons ev rest ih =>
    intro v hv
    unfold matchVariant
    by_cases h : ev.value = v
    · rw [if_pos h]; rfl
    · rw [if_neg h]
      rw [List.map_cons, List.mem_cons] at hv
      rcases hv with he | hr
      · exact absurd he.symm h
      · have hsome := ih v hr
        cases hmv : matchVariant rest v with
        | none => rw [hmv] at hsome; cases hsome
        | some j => rfl

theorem matchVariant_at_index :
    ∀ (vals : List RegisterEnumValue) (j : Nat) (vj : RegisterEnumValue),
      vals[j]? = some vj → (vals.map (·.value)).Nodup →
      matchVariant vals vj.value = some j := by
  intro vals
  induction vals with
  | nil => intro j vj hj _; simp at hj
  | cons ev rest ih =>
    intro j vj hj hnd
    rw [List.map_cons, List.nodup_cons] at hnd
    cases j with
    | zero =>
      rw [List.getElem?_cons_zero] at hj
      obtain rfl := Option.some.inj hj
      unfold matchVariant
      rw [if_pos rfl]
    | succ n =>
      rw [List.getElem?_cons_succ] at hj
      unfold matchVariant
      have hne : ev.value ≠ vj.value := by
        intro he
        apply hnd.1
        rw [he]
        exact List.mem_map.mpr ⟨vj, List.getElem?_mem hj, rfl⟩
      rw [if_neg hne, ih n vj hj hnd.2]
      rfl

theorem shiftLeft_and_shiftLeft (a b n : Nat) :
    (a <<< n) &&& (b <<< n) = (a &&& b) <<< n := by
  apply Nat.eq_of_testBit_eq
  intro i
  simp only [Nat.testBit_and, Nat.testBit_shiftLeft]
  by_cases h : n ≤ i <;> simp [h]

theorem shiftLeft_shiftRight_self (v n : Nat) : (v <<< n) >>> n = v := by
  rw [Nat.shiftLeft_eq, Nat.shiftRight_eq_div_pow]
  exact Nat.mul_div_cancel v (Nat.pos_pow_of_pos n (by omega))

theorem and_two_pow_sub_one_self {v k : Nat} (h : v < 2 ^ k) :
    v &&& (2 ^ k - 1) = v := by
  rw [Nat.and_pow_two_sub_one_eq_mod]
  exact Nat.mod_eq_of_lt h

theorem decode_le_max (raw maxV lsb : Nat) :
    (raw &&& (maxV <<< lsb)) >>> lsb ≤ maxV := by
  have h1 : raw &&& (maxV <<< lsb) ≤ maxV <<< lsb := Nat.and_le_right
  have h2 : (raw &&& (maxV <<< lsb)) >>> lsb ≤ (maxV <<< lsb) >>> lsb := by
    rw [Nat.shiftRight_eq_div_pow, Nat.shiftRight_eq_div_pow]
    exact Nat.div_le_div_right h1
  rwa [shiftLeft_shiftRight_self] at h2

theorem max_value_some {r : BitRange} {m : Nat} (h : r.max_value = some m) :
    m = 2 ^ r.bit_count - 1 ∧ r.bit_count ≤ 64 := by
  unfold BitRange.max_value at h
  by_cases h1 : r.bit_count > 64
  · rw [if_pos h1] at h; cases h
  · rw [if_neg h1] at h
    by_cases h2 : r.bit_count = 64
    · rw [if_pos h2] at h
      obtain rfl := Option.some.inj h
      exact ⟨by rw [h2], by omega⟩
    · rw [if_neg h2] at h
      exact ⟨(Option.some.inj h).symm, by omega⟩

theorem checkOneEnum_msgs_pass (fns : List RegisterFunction) (seen : List BitRange)
    (e : RegisterEnum) (m : Nat)
    (h1 : enumRangeMatched fns e = true) (h2 : enumReservedMatched fns e = false)
    (h3 : e.range ∉ seen) (hm : e.range.max_value = some m) :
    (checkOneEnum fns seen e).2.1 = checkValuesGo e.name m [] e.values := by
  unfold checkOneEnum
  rw [if_neg (by simp [h1]), if_neg (by simp [h2]), if_neg h3, hm]

/-- C9: for a register whose coverage and enum checks produced no
diagnostics (functions well formed, enums initially unflagged) and an enum
marked complete, encode/decode round-trips on every variant and decode is
total — every raw value's masked-and-shifted field value matches some
declared variant, so the `unreachable!()` fallthrough is never taken. -/
theorem c9_complete_enum_roundtrip (r : Register)
    (hwf : ∀ f ∈ r.functions, f.range.lsb ≤ f.range.msb)
    (hflags : ∀ e ∈ r.enums, e.all_possible_values_are_defined = false)
    (hcov : check_functions r = [])
    (hsem : (check_register_enums r).2 = [])
    (i : Nat) (e e' : RegisterEnum)
    (he : r.enums[i]? = some e)
    (he' : (check_register_enums r).1.enums[i]? = some e')
    (hcomplete : e'.all_possible_values_are_defined = true) :
    (∀ (j : Nat) (vj : RegisterEnumValue), e'.values[j]? = some vj →
      fromRegisterValue e' (toRegisterValue e'.range r.size_in_bits.toNat vj) = some j) ∧
    (∀ raw : Nat, (fromRegisterValue e' raw).isSome = true) := by
  have hget := checkEnumsGo_get? r.functions r.enums [] i e he
  have hre : (check_register_enums r).1.enums =
      (checkEnumsGo r.functions [] r.enums).1 := rfl
  rw [hre, hget] at he'
  obtain rfl := Option.some.inj he'
  set seen := seenAfter r.functions [] (r.enums.take i) with hseen
  have hfl0 : e.all_possible_values_are_defined = false :=
    hflags e (List.getElem?_mem he)
  obtain ⟨h1, h2, h3, hmapeq⟩ := (checkOneEnum_flag r.functions seen e hfl0).mp hcomplete
  cases hmv : e.range.max_value with
  | none => rw [hmv] at hmapeq; simp at hmapeq
  | some m =>
  rw [hmv, Option.map_some'] at hmapeq
  have hlen : e.values.length = m + 1 := (Option.some.inj hmapeq).symm
  obtain ⟨hm2, hbc⟩ := max_value_some hmv
  obtain ⟨hrange, hvalues, _⟩ := checkOneEnum_fields r.functions seen e
  have hcovsplit : (processFunctions r.functions
      (List.replicate r.size_in_bits.toNat none)).2 = [] := by
    have hdef : check_functions r =
        (processFunctions r.functions (List.replicate r.size_in_bits.toNat none)).2 ++
          undefinedMsgs (findRuns (processFunctions r.functions
            (List.replicate r.size_in_bits.toNat none)).1) := rfl
    rw [hdef] at hcov
    exact (List.append_eq_nil.mp hcov).1
  obtain ⟨f, hfmem, hfr⟩ : ∃ f ∈ r.functions, f.range = e.range := by
    have hh := h1
    unfold enumRangeMatched at hh
    rw [List.any_eq_true] at hh
    obtain ⟨f, hfm, hfd⟩ := hh
    exact ⟨f, hfm, of_decide_eq_true hfd⟩
  have hmsb_lt : e.range.msb < r.size_in_bits.toNat := by
    have hh := processFunctions_msgs_nil r.functions _ hcovsplit f hfmem (hwf f hfmem)
    rw [List.length_replicate, hfr] at hh
    exact hh
  have hlsb_le : e.range.lsb ≤ e.range.msb := by
    have hh := hwf f hfmem
    rw [hfr] at hh
    exact hh
  have hmsgs := checkEnumsGo_msgs_nil r.functions r.enums [] hsem i e he
  rw [checkOneEnum_msgs_pass r.functions seen e m h1 h2 h3 hmv] at hmsgs
  obtain ⟨hallv, hnd⟩ := checkValuesGo_nil e.name m e.values [] hmsgs
  have hcomp : ∀ x, x ≤ m → x ∈ e.values.map (·.value) := by
    apply nodup_bounded_complete hnd
    · intro x hx
      rcases List.mem_map.mp hx with ⟨w, hw, hww⟩
      rw [← hww]
      exact (hallv w hw).1
    · rw [List.length_map]
      exact hlen
  have hbclsb : e.range.bit_count + e.range.lsb ≤ r.size_in_bits.toNat := by
    unfold BitRange.bit_count
    omega
  have hmask : maskOf e.range = m <<< e.range.lsb := by
    unfold maskOf
    rw [hmv]
    rfl
  constructor
  · intro j vj hj
    rw [hvalues] at hj
    have hvj_le : vj.value ≤ m := (hallv vj (List.getElem?_mem hj)).1
    have hpos : 0 < 2 ^ e.range.bit_count := Nat.pos_pow_of_pos _ (by omega)
    have hvj_lt : vj.value < 2 ^ e.range.bit_count := by omega
    have hto : toRegisterValue (checkOneEnum r.functions seen e).1.range
        r.size_in_bits.toNat vj = vj.value <<< e.range.lsb := by
      unfold toRegisterValue
      rw [hrange]
      apply Nat.mod_eq_of_lt
      rw [Nat.shiftLeft_eq]
      calc vj.value * 2 ^ e.range.lsb
          < 2 ^ e.range.bit_count * 2 ^ e.range.lsb :=
            mul_lt_mul_of_pos_right hvj_lt (Nat.pos_pow_of_pos _ (by omega))
        _ = 2 ^ (e.range.bit_count + e.range.lsb) := (pow_add 2 _ _).symm
        _ ≤ 2 ^ r.size_in_bits.toNat := Nat.pow_le_pow_right (by omega) hbclsb
    rw [hto]
    unfold fromRegisterValue
    rw [hrange, hvalues, hmask, shiftLeft_and_shiftLeft, hm2,
      and_two_pow_sub_one_self hvj_lt, shiftLeft_shiftRight_self]
    exact matchVariant_at_index e.values j vj hj hnd
  · intro raw
    unfold fromRegisterValue
    rw [hrange, hvalues, hmask]
    apply matchVariant_isSome
    exact hcomp _ (decode_le_max raw m e.range.lsb)

/-- Witness for C9: the complete 2-bit enum of `c9WReg` round-trips variant
`v1` and decodes the raw value `171 = 0xAB` without hitting the
fallthrough. -/
theorem c9_complete_enum_roundtrip_witness :
    fromRegisterValue
      ⟨"e", ⟨1, 0⟩,
        [⟨0, "v0", none⟩, ⟨1, "v1", none⟩, ⟨2, "v2", none⟩, ⟨3, "v3", none⟩],
        none, true⟩
      (toRegisterValue
        (⟨"e", ⟨1, 0⟩,
          [⟨0, "v0", none⟩, ⟨1, "v1", none⟩, ⟨2, "v2", none⟩, ⟨3, "v3", none⟩],
          none, true⟩ : RegisterEnum).range
        c9WReg.size_in_bits.toNat ⟨1, "v1", none⟩) = some 1 ∧
    (fromRegisterValue
      ⟨"e", ⟨1, 0⟩,
        [⟨0, "v0", none⟩, ⟨1, "v1", none⟩, ⟨2, "v2", none⟩, ⟨3, "v3", none⟩],
        none, true⟩ 171).isSome = true := by
  have h := c9_complete_enum_roundtrip c9WReg (by decide) (by decide) (by decide)
    (by decide) 0
    ⟨"e", ⟨1, 0⟩,
      [⟨0, "v0", none⟩, ⟨1, "v1", none⟩, ⟨2, "v2", none⟩, ⟨3, "v3", none⟩],
      none, false⟩
    ⟨"e", ⟨1, 0⟩,
      [⟨0, "v0", none⟩, ⟨1, "v1", none⟩, ⟨2, "v2", none⟩, ⟨3, "v3", none⟩],
      none, true⟩ rfl rfl rfl
  exact ⟨h.1 1 ⟨1, "v1", none⟩ rfl, h.2 171⟩

theorem append_ne_nil_of_right {α : Type} {es : List α} (unk : List α) (h : es ≠ []) :
    unk ++ es ≠ [] := by
  intro hc
  rcases List.append_eq_nil.mp hc with ⟨_, h2⟩
  exact h h2

theorem reqStringV_perr (ct : CurrentTable) (t : List (String × Toml)) (key : String) :
    (reqStringV ct t key).1 = Except.error () → (reqStringV ct t key).2 ≠ [] := by
  unfold reqStringV
  cases h : lookupKey t key with
  | none => intro _; simp
  | some v => cases v <;> intro hh <;> simp_all

theorem optStringV_perr (ct : CurrentTable) (t : List (String × Toml)) (key : String) :
    (optStringV ct t key).1 = Except.error () → (optStringV ct t key).2 ≠ [] := by
  unfold optStringV
  cases h : lookupKey t key with
  | none => intro hh; simp_all
  | some v => cases v <;> intro hh <;> simp_all

theorem reqParse_perr {α : Type} (ct : CurrentTable) (t : List (String × Toml))
    (key : String) (p : String → Option α) :
    (reqParse ct t key p).1 = Except.error () → (reqParse ct t key p).2 ≠ [] := by
  unfold reqParse
  cases h : lookupKey t key with
  | none => intro _; simp
  | some v =>
    cases v with
    | str s => cases hp : p s <;> intro hh <;> simp_all
    | int n => intro hh; simp_all
    | bool b => intro hh; simp_all
    | arr xs => intro hh; simp_all
    | table kvs => intro hh; simp_all

theorem optParse_perr {α : Type} (ct : CurrentTable) (t : List (String × Toml))
    (key : String) (p : String → Option α) :
    (optParse ct t key p).1 = Except.error () → (optParse ct t key p).2 ≠ [] := by
  unfold optParse
  cases h : lookupKey t key with
  | none => intro hh; simp_all
  | some v =>
    cases v with
    | str s => cases hp : p s <;> intro hh <;> simp_all
    | int n => intro hh; simp_all
    | bool b => intro hh; simp_all
    | arr xs => intro hh; simp_all
    | table kvs => intro hh; simp_all

theorem check_register_description_perr (t : List (String × Toml)) :
    (check_register_description t).1 = Except.error () →
    (check_register_description t).2 ≠ [] := by
  unfold check_register_description
  split
  next e es heq =>
    intro _
    have hp := reqStringV_perr .registerDescription t "name" (by rw [heq])
    rw [heq] at hp
    exact append_ne_nil_of_right _ hp
  next name x1 heq1 =>
    split
    next e es heq =>
      intro _
      have hp := reqParse_perr .registerDescription t "version" parseSpecVersion (by rw [heq])
      rw [heq] at hp
      exact append_ne_nil_of_right _ hp
    next version x2 heq2 =>
      split
      next e es heq =>
        intro _
        have hp := optStringV_perr .registerDescription t "description" (by rw [heq])
        rw [heq] at hp
        exact append_ne_nil_of_right _ hp
      next description x3 heq3 =>
        split
        next e es heq =>
          intro _
          have hp := optParse_perr .registerDescription t "extension" parseExtension (by rw [heq])
          rw [heq] at hp
          exact append_ne_nil_of_right _ hp
        next extension x4 heq4 =>
          split
          next e es heq =>
            intro _
            have hp := optParse_perr .registerDescription t "default_register_size"
              parseRegisterSize (by rw [heq])
            rw [heq] at hp
            exact append_ne_nil_of_right _ hp
          next dsz x5 heq5 =>
            split
            next e es heq =>
              intro _
              have hp := optParse_perr .registerDescription t "default_register_access"
                parseAccessMode (by rw [heq])
              rw [heq] at hp
              exact append_ne_nil_of_right _ hp
            next dac x6 heq6 =>
              split
              next e es heq =>
                intro _
                have hp := optParse_perr .registerDescription t "index_size"
                  parseRegisterSize (by rw [heq])
                rw [heq] at hp
                exact append_ne_nil_of_right _ hp
              next isz x7 heq7 =>
                split
                next e es heq =>
                  intro _
                  have hp := optParse_perr .registerDescription t "address_size"
                    parseRegisterSize (by rw [heq])
                  rw [heq] at hp
                  exact append_ne_nil_of_right _ hp
                next asz x8 heq8 =>
                  intro h
                  simp at h

/-- C7: `check_root_table` returns `Ok` exactly when the accumulated
diagnostic list (`rootErrors`) is empty at the end of the pass; every `Err`
carries exactly that accumulated list, which is never empty; and a failing
description table short-circuits with only the diagnostics gathered so far
(root unknown keys plus description errors — no register is processed). -/
theorem c7_error_contract (root : List (String × Toml)) :
    (∀ pf, check_root_table root = Except.ok pf → rootErrors root = []) ∧
    (∀ es, check_root_table root = Except.error es →
      es = rootErrors root ∧ es ≠ []) ∧
    (∀ dt, lookupKey root "register_description" = some (Toml.table dt) →
      (check_register_description dt).1 = Except.error () →
      check_root_table root = Except.error
        (unknownKeyErrors .root ["register_description", "register"] root ++
          (check_register_description dt).2)) := by
  unfold check_root_table rootErrors
  cases hlk : lookupKey root "register_description" with
  | none =>
    refine ⟨?_, ?_, ?_⟩
    · intro pf h; simp at h
    · intro es h
      injection h with h2
      exact ⟨h2.symm, by rw [← h2]; simp⟩
    · intro dt hdt
      cases hdt
  | some v =>
    cases v with
    | str s =>
      refine ⟨?_, ?_, ?_⟩
      · intro pf h; simp at h
      · intro es h
        injection h with h2
        exact ⟨h2.symm, by rw [← h2]; simp⟩
      · intro dt hdt
        simp at hdt
    | int n =>
      refine ⟨?_, ?_, ?_⟩
      · intro pf h; simp at h
      · intro es h
        injection h with h2
        exact ⟨h2.symm, by rw [← h2]; simp⟩
      · intro dt hdt
        simp at hdt
    | bool b =>
      refine ⟨?_, ?_, ?_⟩
      · intro pf h; simp at h
      · intro es h
        injection h with h2
        exact ⟨h2.symm, by rw [← h2]; simp⟩
      · intro dt hdt
        simp at hdt
    | arr xs =>
      refine ⟨?_, ?_, ?_⟩
      · intro pf h; simp at h
      · intro es h
        injection h with h2
        exact ⟨h2.symm, by rw [← h2]; simp⟩
      · intro dt hdt
        simp at hdt
    | table dt =>
      dsimp only
      cases hcd : check_register_description dt with
      | mk res esd =>
        cases res with
        | error e =>
          have hesd : esd ≠ [] := by
            have hp := check_register_description_perr dt (by rw [hcd])
            rw [hcd] at hp
            exact hp
          refine ⟨?_, ?_, ?_⟩
          · intro pf h; simp at h
          · intro es h
            injection h with h2
            exact ⟨h2.symm, by rw [← h2]; exact append_ne_nil_of_right _ hesd⟩
          · intro dt' hdt _
            obtain rfl : dt = dt' := by
              injection hdt with hdt2
              injection hdt2
            rw [hcd]
        | ok rd =>
          dsimp only
          cases hif : (unknownKeyErrors .root ["register_description", "register"] root
              ++ esd ++ (handleRegisterKey root rd).2).isEmpty with
          | true =>
            refine ⟨?_, ?_, ?_⟩
            · intro pf _
              exact List.isEmpty_iff.mp hif
            · intro es h
              simp at h
            · intro dt' hdt hfail
              obtain rfl : dt = dt' := by
                injection hdt with hdt2
                injection hdt2
              rw [hcd] at hfail
              cases hfail
          | false =>
            refine ⟨?_, ?_, ?_⟩
            · intro pf h
              simp at h
            · intro es h
              simp only [Bool.false_eq_true, if_false] at h
              injection h with h2
              refine ⟨h2.symm, ?_⟩
              rw [← h2]
              intro hc
              rw [hc] at hif
              simp at hif
            · intro dt' hdt hfail
              obtain rfl : dt = dt' := by
                injection hdt with hdt2
                injection hdt2
              rw [hcd] at hfail
              cases hfail

/-- Witness for C7: the empty root table fails with exactly the missing
description-key diagnostic, a nonempty list. -/
theorem c7_error_contract_witness :
    check_root_table [] =
      Except.error [ValidationError.missingKey CurrentTable.root "register_description"] ∧
    ([ValidationError.missingKey CurrentTable.root "register_description"] :
      List ValidationError) ≠ [] := by
  refine ⟨rfl, ?_⟩
  exact ((c7_error_contract []).2.1
    [ValidationError.missingKey CurrentTable.root "register_description"] rfl).2

theorem reqStringV_str {t : List (String × Toml)} {key s : String}
    (ct : CurrentTable) (h : lookupKey t key = some (Toml.str s)) :
    reqStringV ct t key = (Except.ok s, []) := by
  unfold reqStringV
  rw [h]

theorem optStringV_of_descOk {t : List (String × Toml)} (ct : CurrentTable)
    (h : descOk t) :
    ∃ d, optStringV ct t "description" = (Except.ok d, []) := by
  unfold descOk at h
  unfold optStringV
  cases hlk : lookupKey t "description" with
  | none => exact ⟨none, rfl⟩
  | some v =>
    rw [hlk] at h
    cases v with
    | str s => exact ⟨some s, rfl⟩
    | int n => cases h
    | bool b => cases h
    | arr xs => cases h
    | table kvs => cases h

theorem optU64_of_locValOk {t : List (String × Toml)} {key : String}
    (ct : CurrentTable) (h : locValOk t key) :
    optU64 ct t key = (Except.ok (locVal t key), []) := by
  unfold locValOk at h
  unfold optU64 locVal
  cases hlk : lookupKey t key with
  | none => rfl
  | some v =>
    rw [hlk] at h
    cases v with
    | str s => cases h
    | int n =>
      dsimp only at h ⊢
      rw [if_pos h]
    | bool b => cases h
    | arr xs => cases h
    | table kvs => cases h

theorem locValOk_shape (t : List (String × Toml)) (key : String) (h : locValOk t key) :
    (lookupKey t key = none ∧ locVal t key = none) ∨
    (∃ n : Int, lookupKey t key = some (Toml.int n) ∧ 0 ≤ n ∧
      locVal t key = some n.toNat) := by
  unfold locValOk at h
  unfold locVal
  cases hlk : lookupKey t key with
  | none => exact Or.inl ⟨rfl, rfl⟩
  | some v =>
    rw [hlk] at h
    cases v with
    | str s => cases h
    | int n => exact Or.inr ⟨n, rfl, h, rfl⟩
    | bool b => cases h
    | arr xs => cases h
    | table kvs => cases h

theorem optU64_ok_presence {ct : CurrentTable} {t : List (String × Toml)}
    {key : String} {o : Option Nat} {es : List ValidationError}
    (h : optU64 ct t key = (Except.ok o, es)) :
    (lookupKey t key).isSome = o.isSome := by
  unfold optU64 at h
  cases hlk : lookupKey t key with
  | none =>
    rw [hlk] at h
    injection h with h1 _
    obtain rfl := Except.ok.inj h1
    rfl
  | some v =>
    rw [hlk] at h
    cases v with
    | str s => injection h with h1 _; cases h1
    | int n =>
      dsimp only at h
      by_cases hn : (0 : Int) ≤ n
      · rw [if_pos hn] at h
        injection h with h1 _
        obtain rfl := Except.ok.inj h1
        rfl
      · rw [if_neg hn] at h
        injection h with h1 _
        cases h1
    | bool b => injection h with h1 _; cases h1
    | arr xs => injection h with h1 _; cases h1
    | table kvs => injection h with h1 _; cases h1

theorem optU64_ok_int {ct : CurrentTable} {t : List (String × Toml)}
    {key : String} {o : Option Nat} {es : List ValidationError} {n : Int}
    (h : optU64 ct t key = (Except.ok o, es))
    (hlk : lookupKey t key = some (Toml.int n)) :
    o = some n.toNat := by
  unfold optU64 at h
  rw [hlk] at h
  dsimp only at h
  by_cases hn : (0 : Int) ≤ n
  · rw [if_pos hn] at h
    injection h with h1 _
    exact (Except.ok.inj h1).symm
  · rw [if_neg hn] at h
    injection h with h1 _
    cases h1

theorem registerLocation_ok_count {a b c : Option Nat} {loc : RegisterLocation}
    (h : registerLocation a b c = Except.ok loc) :
    (if a.isSome then 1 else 0) + (if b.isSome then 1 else 0)
      + (if c.isSome then 1 else 0) = 1 := by
  rcases a <;> rcases b <;> rcases c <;> simp [registerLocation] at h ⊢

theorem registerLocation_ok_index {a b c : Option Nat} {loc : RegisterLocation} {n : Nat}
    (h : registerLocation a b c = Except.ok loc) (ha : a = some n) :
    loc = RegisterLocation.index n := by
  subst ha
  rcases b <;> rcases c <;> simp [registerLocation] at h; exact h.symm

theorem registerLocation_ok_absolute {a b c : Option Nat} {loc : RegisterLocation} {n : Nat}
    (h : registerLocation a b c = Except.ok loc) (hb : b = some n) :
    loc = RegisterLocation.absolute n := by
  subst hb
  rcases a <;> rcases c <;> simp [registerLocation] at h; exact h.symm

theorem registerLocation_ok_relative {a b c : Option Nat} {loc : RegisterLocation} {n : Nat}
    (h : registerLocation a b c = Except.ok loc) (hc : c = some n) :
    loc = RegisterLocation.relative n := by
  subst hc
  rcases a <;> rcases b <;> simp [registerLocation] at h; exact h.symm

/-- C6 (amended): a register's location is assigned only when exactly one of
`index`, `absolute_address`, `relative_address` is present (yielding
`Index`, `Absolute`, `Relative` respectively); when every present location
key holds a well-formed integer, zero present keys or more than one present
key produce a `ConstraintError` (`locationRequired` / `locationCount`) and
reject the register.  (A present location key of the wrong type or with a
negative value instead yields a `ValueError` and rejection.) -/
theorem c6_location_exactly_one (t : List (String × Toml)) (rd : RegisterDescription) :
    (∀ reg, (validate_register_table t rd).1 = Except.ok reg →
      locKeysPresentCount t = 1 ∧
      (∀ n : Int, lookupKey t "index" = some (Toml.int n) →
        reg.location = RegisterLocation.index n.toNat) ∧
      (∀ n : Int, lookupKey t "absolute_address" = some (Toml.int n) →
        reg.location = RegisterLocation.absolute n.toNat) ∧
      (∀ n : Int, lookupKey t "relative_address" = some (Toml.int n) →
        reg.location = RegisterLocation.relative n.toNat)) ∧
    (∀ nm : String, lookupKey t "name" = some (Toml.str nm) → descOk t →
      locValOk t "index" → locValOk t "absolute_address" →
      locValOk t "relative_address" →
      locKeysPresentCount t ≠ 1 →
      (validate_register_table t rd).1 = Except.error () ∧
      (locKeysPresentCount t = 0 →
        ValidationError.tableError .register TableMsg.locationRequired ∈
          (validate_register_table t rd).2) ∧
      (2 ≤ locKeysPresentCount t →
        ValidationError.tableError .register TableMsg.locationCount ∈
          (validate_register_table t rd).2)) := by
  constructor
  · intro reg h
    unfold validate_register_table at h
    split at h
    next => simp at h
    next name x1 h1 =>
    split at h
    next => simp at h
    next description x2 h2 =>
    split at h
    next => simp at h
    next indexLoc x3 h3 =>
    split at h
    next => simp at h
    next absLoc x4 h4 =>
    split at h
    next => simp at h
    next relLoc x5 h5 =>
    split at h
    next => simp at h
    next location h6 =>
    repeat' split at h
    all_goals try simp at h
    all_goals (
      have hp1 := optU64_ok_presence h3
      have hp2 := optU64_ok_presence h4
      have hp3 := optU64_ok_presence h5
      refine ⟨?_, ?_, ?_, ?_⟩
      · unfold locKeysPresentCount
        rw [hp1, hp2, hp3]
        exact registerLocation_ok_count h6
      · intro n hlk
        have hloc := registerLocation_ok_index h6 (optU64_ok_int h3 hlk)
        rw [← h]
        exact hloc
      · intro n hlk
        have hloc := registerLocation_ok_absolute h6 (optU64_ok_int h4 hlk)
        rw [← h]
        exact hloc
      · intro n hlk
        have hloc := registerLocation_ok_relative h6 (optU64_ok_int h5 hlk)
        rw [← h]
        exact hloc)
  · intro nm hnm hdesc hv1 hv2 hv3 hne
    unfold validate_register_table
    rw [reqStringV_str .register hnm]
    dsimp only
    obtain ⟨d, hd⟩ := optStringV_of_descOk .register hdesc
    rw [hd]
    dsimp only
    rw [optU64_of_locValOk .register hv1, optU64_of_locValOk .register hv2,
      optU64_of_locValOk .register hv3]
    dsimp only
    rcases locValOk_shape t "index" hv1 with ⟨hlk1, hv1'⟩ | ⟨n1, hlk1, _, hv1'⟩ <;>
      rcases locValOk_shape t "absolute_address" hv2 with ⟨hlk2, hv2'⟩ | ⟨n2, hlk2, _, hv2'⟩ <;>
      rcases locValOk_shape t "relative_address" hv3 with ⟨hlk3, hv3'⟩ | ⟨n3, hlk3, _, hv3'⟩
    all_goals (
      first
        | (exfalso
           apply hne
           simp only [locKeysPresentCount, hlk1, hlk2, hlk3]
           rfl)
        | (rw [hv1', hv2', hv3']
           simp only [registerLocation]
           try dsimp only
           refine ⟨?_, fun h0 => ?_, fun h2 => ?_⟩
           · trivial
           · first
               | (simp [locKeysPresentCount, hlk1, hlk2, hlk3] at h0
                  done)
               | simp
           · first
               | (simp [locKeysPresentCount, hlk1, hlk2, hlk3] at h2
                  done)
               | simp))

/-- C6 counterexample to the spec's sentence: both `index` and
`absolute_address` are present, yet no `ConstraintError` is produced —
`absolute_address` holds a string, so the optional `u64` read fails first
with a `ValueError` and the register is rejected before the
location-count check runs. -/
theorem c6_location_valueerror_counterexample :
    locKeysPresentCount c6CexTable = 2 ∧
    (validate_register_table c6CexTable c6Rd).1 = Except.error () ∧
    (validate_register_table c6CexTable c6Rd).2 =
      [ValidationError.valueError .register "absolute_address"] := by
  refine ⟨by decide, rfl, rfl⟩

/-- C6 witness: a register table with no location key at all is rejected
and a `locationRequired` constraint error is reported. -/
theorem c6_location_exactly_one_witness :
    (validate_register_table c6WTable c6Rd).1 = Except.error () ∧
    ValidationError.tableError CurrentTable.register TableMsg.locationRequired ∈
      (validate_register_table c6WTable c6Rd).2 := by
  have h := (c6_location_exactly_one c6WTable c6Rd).2 "A" rfl trivial trivial
    trivial trivial (by decide)
  exact ⟨h.1, h.2.1 (by decide)⟩
